import Mathlib

/-!
# Verification of the postman-collection-to-html rendering core

This file gives a shallow embedding, in Lean 4, of the rendering core of the
`postman-collection-to-html` repository (`src/index.js` together with the
translation-aware variant in the repository's other source file), and proves
or refutes the frozen specification claims about it.

JavaScript strings are modelled as Lean `String`/`List Char`.  JavaScript's
`toLowerCase` is modelled on the ASCII range (the only range the claims
depend on), regexes are modelled by equivalent explicit scanners, and
`JSON.parse`/`JSON.stringify(·, null, 2)` are modelled by an executable
parser/printer pair over a JSON value type whose numbers are integers.
Recursive scanners use an explicit fuel argument (always instantiated with
the input length, which is shown to be sufficient) so that every definition
is kernel-computable.
-/

/-! ## Character classes

`isWordChar` is the JavaScript regex class `\w` = `[A-Za-z0-9_]`.
`isJsSpace` is the JavaScript regex class `\s` (ASCII whitespace together
with the Unicode space code points matched by `\s`).
All classes are phrased via `Char.toNat` so that `omega` can reason about
them after `simp [decide_eq_true_eq]`. -/

def isAsciiLowerChar (c : Char) : Bool := decide (97 ≤ c.toNat ∧ c.toNat ≤ 122)

def isAsciiUpperChar (c : Char) : Bool := decide (65 ≤ c.toNat ∧ c.toNat ≤ 90)

def isAsciiDigitChar (c : Char) : Bool := decide (48 ≤ c.toNat ∧ c.toNat ≤ 57)

def isWordChar (c : Char) : Bool :=
  isAsciiLowerChar c || isAsciiUpperChar c || isAsciiDigitChar c || decide (c.toNat = 95)

def isJsSpace (c : Char) : Bool :=
  decide (c.toNat = 32) || decide (c.toNat = 9) || decide (c.toNat = 10) ||
  decide (c.toNat = 11) || decide (c.toNat = 12) || decide (c.toNat = 13) ||
  decide (c.toNat = 0xa0) || decide (c.toNat = 0x1680) ||
  decide (0x2000 ≤ c.toNat ∧ c.toNat ≤ 0x200a) ||
  decide (c.toNat = 0x2028) || decide (c.toNat = 0x2029) ||
  decide (c.toNat = 0x202f) || decide (c.toNat = 0x205f) ||
  decide (c.toNat = 0x3000) || decide (c.toNat = 0xfeff)

/-- JavaScript `String.prototype.toLowerCase`, modelled on the ASCII range:
uppercase ASCII letters are shifted down by 32, all other characters are
kept. -/
def jsToLower (c : Char) : Char :=
  if 65 ≤ c.toNat ∧ c.toNat ≤ 90 then Char.ofNat (c.toNat + 32) else c

/-- A character allowed in a slug: a lower-case word character
(`[a-z0-9_]`) or a hyphen.  This is the character class the specification
asserts for `slugify` output. -/
def isSlugChar (c : Char) : Bool :=
  isAsciiLowerChar c || isAsciiDigitChar c || decide (c.toNat = 95) || decide (c.toNat = 45)

theorem toNat_ofNat_valid (n : Nat) (h : n.isValidChar) : (Char.ofNat n).toNat = n := by
  simp [Char.ofNat, h, Char.ofNatAux, Char.toNat, UInt32.toNat]

theorem jsToLower_toNat_not_upper (c : Char) :
    ¬(65 ≤ (jsToLower c).toNat ∧ (jsToLower c).toNat ≤ 90) := by
  unfold jsToLower
  split
  · next h =>
    have hv : (c.toNat + 32).isValidChar := by
      left; omega
    rw [toNat_ofNat_valid _ hv]
    omega
  · next h => omega

theorem jsToLower_fix (c : Char) (h : isSlugChar c = true) : jsToLower c = c := by
  simp only [isSlugChar, isAsciiLowerChar, isAsciiDigitChar, Bool.or_eq_true,
    decide_eq_true_eq] at h
  unfold jsToLower
  rw [if_neg]
  omega

theorem isSlugChar_not_space (c : Char) (h : isSlugChar c = true) : isJsSpace c = false := by
  simp only [isSlugChar, isAsciiLowerChar, isAsciiDigitChar, Bool.or_eq_true,
    decide_eq_true_eq] at h
  simp only [isJsSpace, Bool.or_eq_false_iff, decide_eq_false_iff_not]
  omega

theorem isSlugChar_word_or_hyphen (c : Char) (h : isSlugChar c = true) :
    (isWordChar c || decide (c.toNat = 45)) = true := by
  simp only [isSlugChar, isAsciiLowerChar, isAsciiDigitChar, Bool.or_eq_true,
    decide_eq_true_eq] at h
  simp only [isWordChar, isAsciiLowerChar, isAsciiUpperChar, isAsciiDigitChar,
    Bool.or_eq_true, decide_eq_true_eq]
  omega

theorem isSlugChar_of_word_not_upper (c : Char) (hw : (isWordChar c || decide (c.toNat = 45)) = true)
    (hu : ¬(65 ≤ c.toNat ∧ c.toNat ≤ 90)) : isSlugChar c = true := by
  simp only [isWordChar, isAsciiLowerChar, isAsciiUpperChar, isAsciiDigitChar,
    Bool.or_eq_true, decide_eq_true_eq] at hw
  simp only [isSlugChar, isAsciiLowerChar, isAsciiDigitChar, Bool.or_eq_true,
    decide_eq_true_eq]
  omega

/-! ## The slugifier (`slugify`, src/index.js lines 855-864)

The source lower-cases, then applies five global regex replaces in order:
`\s+` by `"-"`, `[^\w\-]+` by `""`, `\-\-+` by `"-"`, then trims the
anchored runs `^-+` and `-+$` (regex slashes omitted here to keep the
comment well formed).

Each regex pass is modelled by an equivalent explicit transformation:
`squashRuns p rep` replaces every maximal run of characters satisfying `p`
by the single character `rep` (the `inRun` flag records whether we are in
the middle of such a run), matching a global replace of `p+` by `rep`; a
global replace by the empty string is a `filter`; the two anchored trims
are `dropWhile` at either end.  Note `/\-\-+/g → "-"` only rewrites runs of
length ≥ 2, but on runs of length 1 `squashRuns` is also the identity, so
the results agree. -/

def squashRuns (p : Char → Bool) (rep : Char) : Bool → List Char → List Char
  | _, [] => []
  | inRun, c :: rest =>
    if p c then
      if inRun then squashRuns p rep true rest
      else rep :: squashRuns p rep true rest
    else c :: squashRuns p rep false rest

def hyphenPred (c : Char) : Bool := decide (c.toNat = 45)

def wordOrHyphen (c : Char) : Bool := isWordChar c || hyphenPred c

/-- Stage 1: lower-casing, character-wise. -/
def slugStage1 (l : List Char) : List Char := l.map jsToLower

/-- Stage 2: global replace of whitespace runs by a single hyphen. -/
def slugStage2 (l : List Char) : List Char := squashRuns isJsSpace '-' false l

/-- Stage 3: global erasure of characters that are neither word characters nor hyphens. -/
def slugStage3 (l : List Char) : List Char := l.filter wordOrHyphen

/-- Stage 4: global collapse of hyphen runs to a single hyphen. -/
def slugStage4 (l : List Char) : List Char := squashRuns hyphenPred '-' false l

/-- Stage 5: trim of the leading hyphen run. -/
def slugStage5 (l : List Char) : List Char := l.dropWhile hyphenPred

/-- Stage 6: trim of the trailing hyphen run. -/
def slugStage6 (l : List Char) : List Char := (l.reverse.dropWhile hyphenPred).reverse

def slugifyList (l : List Char) : List Char :=
  slugStage6 (slugStage5 (slugStage4 (slugStage3 (slugStage2 (slugStage1 l)))))

def slugify (s : String) : String := ⟨slugifyList s.data⟩

/-! ### Properties of the slugifier -/

theorem char_eq_of_toNat_eq {c d : Char} (h : c.toNat = d.toNat) : c = d :=
  Char.eq_of_val_eq (UInt32.toNat.inj h)

/-- Adjacent-hyphen freedom, as a `Chain'` relation. -/
def NoAdjHyphen (l : List Char) : Prop :=
  List.Chain' (fun a b => ¬(a.toNat = 45 ∧ b.toNat = 45)) l

theorem squashRuns_nil (p : Char → Bool) (rep : Char) (b : Bool) :
    squashRuns p rep b [] = [] := by
  cases b <;> rfl

theorem squashRuns_cons (p : Char → Bool) (rep : Char) (b : Bool) (c : Char) (rest : List Char) :
    squashRuns p rep b (c :: rest) =
      if p c then
        (if b then squashRuns p rep true rest else rep :: squashRuns p rep true rest)
      else c :: squashRuns p rep false rest := by
  cases b <;> rfl

theorem mem_squashRuns (p : Char → Bool) (rep : Char) :
    ∀ (l : List Char) (b : Bool) (c : Char), c ∈ squashRuns p rep b l → c ∈ l ∨ c = rep := by
  intro l
  induction l with
  | nil => intro b c h; simp [squashRuns] at h
  | cons a t ih =>
    intro b c h
    unfold squashRuns at h
    split at h
    · split at h
      · rcases ih true c h with h' | h'
        · exact Or.inl (List.mem_cons_of_mem a h')
        · exact Or.inr h'
      · rcases List.mem_cons.mp h with h' | h'
        · exact Or.inr h'
        · rcases ih true c h' with h'' | h''
          · exact Or.inl (List.mem_cons_of_mem a h'')
          · exact Or.inr h''
    · rcases List.mem_cons.mp h with h' | h'
      · exact Or.inl (h' ▸ List.mem_cons_self a t)
      · rcases ih false c h' with h'' | h''
        · exact Or.inl (List.mem_cons_of_mem a h'')
        · exact Or.inr h''

theorem squashRuns_eq_self_of_none (p : Char → Bool) (rep : Char) :
    ∀ (l : List Char), (∀ c ∈ l, p c = false) → ∀ b, squashRuns p rep b l = l := by
  intro l
  induction l with
  | nil => intro _ b; cases b <;> rfl
  | cons a t ih =>
    intro h b
    have ha : p a = false := h a (List.mem_cons_self a t)
    have ht : ∀ c ∈ t, p c = false := fun c hc => h c (List.mem_cons_of_mem a hc)
    rw [squashRuns_cons, ha]
    simp only [Bool.false_eq_true, if_false]
    rw [ih ht false]

theorem squashRuns_props (p : Char → Bool) (rep : Char) :
    ∀ l : List Char,
      List.Chain' (fun a b => ¬(p a = true ∧ p b = true)) (squashRuns p rep false l) ∧
      (∀ c, (squashRuns p rep true l).head? = some c → p c = false) ∧
      List.Chain' (fun a b => ¬(p a = true ∧ p b = true)) (squashRuns p rep true l) := by
  intro l
  induction l with
  | nil => exact ⟨List.chain'_nil, by intro c h; simp [squashRuns] at h, List.chain'_nil⟩
  | cons a t ih =>
    obtain ⟨ih1, ih2, ih3⟩ := ih
    by_cases hp : p a = true
    · have e1 : squashRuns p rep false (a :: t) = rep :: squashRuns p rep true t := by
        rw [squashRuns_cons, hp]; simp
      have e2 : squashRuns p rep true (a :: t) = squashRuns p rep true t := by
        rw [squashRuns_cons, hp]; simp
      refine ⟨?_, ?_, ?_⟩
      · rw [e1]
        rw [List.chain'_cons']
        refine ⟨?_, ih3⟩
        intro y hy
        have := ih2 y hy
        intro ⟨_, hy'⟩
        rw [this] at hy'
        exact Bool.false_ne_true hy'
      · rw [e2]; exact ih2
      · rw [e2]; exact ih3
    · have hpf : p a = false := Bool.eq_false_iff.mpr hp
      have e : ∀ b, squashRuns p rep b (a :: t) = a :: squashRuns p rep false t := by
        intro b; rw [squashRuns_cons, hpf]; simp
      refine ⟨?_, ?_, ?_⟩
      · rw [e false, List.chain'_cons']
        exact ⟨fun y _ => fun ⟨ha', _⟩ => hp ha', ih1⟩
      · rw [e true]
        intro c hc
        simp only [List.head?_cons, Option.some.injEq] at hc
        rw [← hc]; exact hpf
      · rw [e true, List.chain'_cons']
        exact ⟨fun y _ => fun ⟨ha', _⟩ => hp ha', ih1⟩

theorem squashRuns_eq_self_of_chain (p : Char → Bool) (rep : Char)
    (hchar : ∀ c, p c = true → c = rep) :
    ∀ l : List Char, List.Chain' (fun a b => ¬(p a = true ∧ p b = true)) l →
      squashRuns p rep false l = l ∧
      ((∀ c, l.head? = some c → p c = false) → squashRuns p rep true l = l) := by
  intro l
  induction l with
  | nil => exact fun _ => ⟨rfl, fun _ => rfl⟩
  | cons a t ih =>
    intro hch
    rw [List.chain'_cons'] at hch
    obtain ⟨hhead, htail⟩ := hch
    obtain ⟨iht1, iht2⟩ := ih htail
    constructor
    · by_cases hp : p a = true
      · have e1 : squashRuns p rep false (a :: t) = rep :: squashRuns p rep true t := by
          rw [squashRuns_cons, hp]; simp
        rw [e1, hchar a hp]
        congr 1
        apply iht2
        intro c hc
        have := hhead c hc
        by_contra hcc
        exact this ⟨hp, Bool.of_not_eq_false hcc⟩
      · have hpf : p a = false := Bool.eq_false_iff.mpr hp
        have e : squashRuns p rep false (a :: t) = a :: squashRuns p rep false t := by
          rw [squashRuns_cons, hpf]; simp
        rw [e, iht1]
    · intro hhd
      have hpf : p a = false := hhd a rfl
      have e : squashRuns p rep true (a :: t) = a :: squashRuns p rep false t := by
        rw [squashRuns_cons, hpf]; simp
      rw [e, iht1]

theorem head?_dropWhile_false (p : Char → Bool) (l : List Char) :
    ∀ c, (l.dropWhile p).head? = some c → p c = false := by
  intro c hc
  have h := List.head?_dropWhile_not p l
  rw [hc] at h
  exact h

theorem dropWhile_eq_self_of_head (p : Char → Bool) (l : List Char)
    (h : ∀ c, l.head? = some c → p c = false) : l.dropWhile p = l := by
  cases l with
  | nil => rfl
  | cons a t => rw [List.dropWhile_cons, h a rfl]; simp

theorem getLast?_of_suffix {l' l : List Char} (h : l' <:+ l) :
    ∀ c, l'.getLast? = some c → l.getLast? = some c := by
  obtain ⟨w, rfl⟩ := h
  intro c hc
  have hne : l' ≠ [] := by intro he; rw [he] at hc; simp at hc
  rw [List.getLast?_append_of_ne_nil w hne]
  exact hc

theorem map_eq_self_of_fix (f : Char → Char) (l : List Char) (h : ∀ c ∈ l, f c = c) :
    l.map f = l := by
  induction l with
  | nil => rfl
  | cons a t ih =>
    rw [List.map_cons, h a (List.mem_cons_self a t),
      ih (fun c hc => h c (List.mem_cons_of_mem a hc))]

theorem slugifyList_chars (l : List Char) : ∀ c ∈ slugifyList l, isSlugChar c = true := by
  intro c hc
  rw [slugifyList, slugStage6] at hc
  have h5 : c ∈ slugStage5 (slugStage4 (slugStage3 (slugStage2 (slugStage1 l)))) := by
    have h' := List.mem_reverse.mp hc
    have h'' := (List.dropWhile_suffix hyphenPred).subset h'
    exact List.mem_reverse.mp h''
  have h4 : c ∈ slugStage4 (slugStage3 (slugStage2 (slugStage1 l))) := by
    rw [slugStage5] at h5
    exact (List.dropWhile_suffix hyphenPred).subset h5
  rw [slugStage4] at h4
  rcases mem_squashRuns _ _ _ _ _ h4 with h3 | h3
  · rw [slugStage3] at h3
    have hmem := (List.mem_filter.mp h3).1
    have hword := (List.mem_filter.mp h3).2
    rw [slugStage2] at hmem
    rcases mem_squashRuns _ _ _ _ _ hmem with h1 | h1
    · rw [slugStage1] at h1
      obtain ⟨a, _, rfl⟩ := List.mem_map.mp h1
      refine isSlugChar_of_word_not_upper _ ?_ (jsToLower_toNat_not_upper a)
      simpa [wordOrHyphen, hyphenPred] using hword
    · rw [h1]; decide
  · rw [h3]; decide

theorem slugifyList_getLast?_ne (l : List Char) :
    ∀ c, (slugifyList l).getLast? = some c → c.toNat ≠ 45 := by
  intro c hc
  rw [slugifyList, slugStage6, List.getLast?_reverse] at hc
  have := head?_dropWhile_false hyphenPred _ c hc
  simpa [hyphenPred] using this

theorem slugifyList_head?_ne (l : List Char) :
    ∀ c, (slugifyList l).head? = some c → c.toNat ≠ 45 := by
  intro c hc
  rw [slugifyList, slugStage6, List.head?_reverse] at hc
  have h2 := getLast?_of_suffix (List.dropWhile_suffix hyphenPred) c hc
  rw [List.getLast?_reverse] at h2
  rw [slugStage5] at h2
  have := head?_dropWhile_false hyphenPred _ c h2
  simpa [hyphenPred] using this

theorem noAdjHyphen_reverse {l : List Char} (h : NoAdjHyphen l) : NoAdjHyphen l.reverse := by
  rw [NoAdjHyphen] at *
  rw [List.chain'_reverse]
  exact h.imp (fun a b hab => fun ⟨h1, h2⟩ => hab ⟨h2, h1⟩)

theorem noAdjHyphen_dropWhile {l : List Char} (p : Char → Bool) (h : NoAdjHyphen l) :
    NoAdjHyphen (l.dropWhile p) := by
  obtain ⟨w, hw⟩ := List.dropWhile_suffix (l := l) p
  rw [NoAdjHyphen] at *
  rw [← hw] at h
  exact (List.chain'_append.1 h).2.1

theorem slugifyList_noAdj (l : List Char) : NoAdjHyphen (slugifyList l) := by
  have h4 : NoAdjHyphen (slugStage4 (slugStage3 (slugStage2 (slugStage1 l)))) := by
    rw [NoAdjHyphen, slugStage4]
    exact (squashRuns_props hyphenPred '-' _).1.imp
      (fun a b hab => fun ⟨h1, h2⟩ => hab ⟨by simpa [hyphenPred] using h1, by simpa [hyphenPred] using h2⟩)
  have h5 : NoAdjHyphen (slugStage5 (slugStage4 (slugStage3 (slugStage2 (slugStage1 l))))) :=
    noAdjHyphen_dropWhile _ h4
  rw [slugifyList, slugStage6]
  exact noAdjHyphen_reverse (noAdjHyphen_dropWhile _ (noAdjHyphen_reverse h5))

theorem slugifyList_eq_self (s : List Char)
    (hchars : ∀ c ∈ s, isSlugChar c = true)
    (hhead : ∀ c, s.head? = some c → c.toNat ≠ 45)
    (hlast : ∀ c, s.getLast? = some c → c.toNat ≠ 45)
    (hadj : NoAdjHyphen s) :
    slugifyList s = s := by
  have e1 : slugStage1 s = s :=
    map_eq_self_of_fix _ _ (fun c hc => jsToLower_fix c (hchars c hc))
  have e2 : slugStage2 s = s :=
    squashRuns_eq_self_of_none _ _ s (fun c hc => isSlugChar_not_space c (hchars c hc)) false
  have e3 : slugStage3 s = s :=
    List.filter_eq_self.2 (fun c hc => by
      have := isSlugChar_word_or_hyphen c (hchars c hc)
      simpa [wordOrHyphen, hyphenPred] using this)
  have e4 : slugStage4 s = s := by
    rw [slugStage4]
    refine (squashRuns_eq_self_of_chain hyphenPred '-' ?_ s ?_).1
    · intro c hc
      refine char_eq_of_toNat_eq ?_
      simpa [hyphenPred] using hc
    · exact hadj.imp (fun a b hab => fun ⟨h1, h2⟩ =>
        hab ⟨by simpa [hyphenPred] using h1, by simpa [hyphenPred] using h2⟩)
  have e5 : slugStage5 s = s := by
    rw [slugStage5]
    refine dropWhile_eq_self_of_head _ _ (fun c hc => ?_)
    simpa [hyphenPred] using hhead c hc
  have e6 : slugStage6 s = s := by
    rw [slugStage6, dropWhile_eq_self_of_head _ _ (fun c hc => ?_), List.reverse_reverse]
    rw [List.head?_reverse] at hc
    simpa [hyphenPred] using hlast c hc
  rw [slugifyList, e1, e2, e3, e4, e5, e6]

theorem slugifyList_idem (l : List Char) : slugifyList (slugifyList l) = slugifyList l :=
  slugifyList_eq_self _ (slugifyList_chars l) (slugifyList_head?_ne l)
    (slugifyList_getLast?_ne l) (slugifyList_noAdj l)

/-- C2: for every input text, `slugify` output contains only lower-case word
characters and hyphens, never starts or ends with a hyphen, and `slugify` is
idempotent: `slugify (slugify x) = slugify x`. -/
theorem slugify_char_class_trim_idempotent (s : String) :
    (∀ c ∈ (slugify s).data, isSlugChar c = true) ∧
    (∀ c, (slugify s).data.head? = some c → c ≠ '-') ∧
    (∀ c, (slugify s).data.getLast? = some c → c ≠ '-') ∧
    slugify (slugify s) = slugify s := by
  refine ⟨slugifyList_chars s.data, ?_, ?_, ?_⟩
  · intro c hc he
    exact slugifyList_head?_ne s.data c hc (by rw [he]; rfl)
  · intro c hc he
    exact slugifyList_getLast?_ne s.data c hc (by rw [he]; rfl)
  · show slugify ⟨slugifyList s.data⟩ = ⟨slugifyList s.data⟩
    rw [slugify]
    exact congrArg String.mk (slugifyList_idem s.data)

/-- Witness for C2 at the concrete input `"A b!"` (which slugifies to `"a-b"`). -/
theorem slugify_char_class_trim_idempotent_witness :
    isSlugChar 'a' = true ∧ ('a' : Char) ≠ '-' ∧ ('b' : Char) ≠ '-' ∧
      slugify (slugify "A b!") = slugify "A b!" :=
  ⟨(slugify_char_class_trim_idempotent "A b!").1 'a' (by decide),
   (slugify_char_class_trim_idempotent "A b!").2.1 'a' (by decide),
   (slugify_char_class_trim_idempotent "A b!").2.2.1 'b' (by decide),
   (slugify_char_class_trim_idempotent "A b!").2.2.2⟩

/-! ## The variable normalizer (`cleanPostmanVariables`, src/index.js lines 866-870)

The source is
a global regex replace of placeholders by their first capture group:
the pattern is an opening double brace, a nonempty run of characters other
than a closing brace (the capture group), then a closing double brace;
non-string input is returned unchanged.

The JavaScript regex engine scans left to right: at each position it tries
to match the pattern; the sub-pattern `[^<rbrace>]+` is a maximal nonempty
run of non-`}` characters (backtracking can never help because shrinking
the run still leaves a non-`}` character where `}}` is required), so a
match at a position exists exactly when the position starts with `{{`,
followed by a nonempty non-`}` run, followed by `}}`.  On a match the
engine emits the capture group and resumes after the match; otherwise it
emits the current character and advances one position.  `cleanAux` is that
scanner, with an explicit fuel argument (the input length suffices: every
step consumes at least one character and one unit of fuel). -/

def notRBrace (x : Char) : Bool := !(x == '}')

def cleanAux : Nat → List Char → List Char
  | _, [] => []
  | 0, l => l
  | fuel+1, c :: rest =>
    if c = '{' ∧ rest.head? = some '{' then
      if (rest.tail.takeWhile notRBrace).isEmpty then c :: cleanAux fuel rest
      else if (rest.tail.dropWhile notRBrace).head? = some '}' ∧
          (rest.tail.dropWhile notRBrace).tail.head? = some '}' then
        rest.tail.takeWhile notRBrace ++ cleanAux fuel (rest.tail.dropWhile notRBrace).tail.tail
      else c :: cleanAux fuel rest
    else c :: cleanAux fuel rest

def cleanList (l : List Char) : List Char := cleanAux l.length l

def cleanPostmanVariables (s : String) : String := ⟨cleanList s.data⟩

/-- A JavaScript value, as far as `cleanPostmanVariables` can observe one:
a string or some non-string value. -/
inductive JsValue where
  | vstr (s : String)
  | vnum (n : Int)
  | vbool (b : Bool)
  | vnull
  | vundef
deriving DecidableEq

/-- The full dynamically-typed `cleanPostmanVariables`: strings are
rewritten, any non-string value is returned unchanged (the
`typeof text !== "string"` early return). -/
def cleanPostmanVariablesJs : JsValue → JsValue
  | .vstr s => .vstr (cleanPostmanVariables s)
  | v => v

/-- Scanner deciding whether the placeholder regex matches anywhere in the
input, with the same branch structure as `cleanAux`. -/
def hasPlaceholderAux : Nat → List Char → Bool
  | _, [] => false
  | 0, _ => false
  | fuel+1, c :: rest =>
    if c = '{' ∧ rest.head? = some '{' then
      if (rest.tail.takeWhile notRBrace).isEmpty then hasPlaceholderAux fuel rest
      else if (rest.tail.dropWhile notRBrace).head? = some '}' ∧
          (rest.tail.dropWhile notRBrace).tail.head? = some '}' then
        true
      else hasPlaceholderAux fuel rest
    else hasPlaceholderAux fuel rest

def hasPlaceholder (s : String) : Bool := hasPlaceholderAux s.data.length s.data

/-! ### Properties of the variable normalizer -/

theorem cleanAux_nil (fuel : Nat) : cleanAux fuel [] = [] := by cases fuel <;> rfl

theorem cleanAux_cons (fuel : Nat) (c : Char) (rest : List Char) :
    cleanAux (fuel+1) (c :: rest) =
      if c = '{' ∧ rest.head? = some '{' then
        if (rest.tail.takeWhile notRBrace).isEmpty then c :: cleanAux fuel rest
        else if (rest.tail.dropWhile notRBrace).head? = some '}' ∧
            (rest.tail.dropWhile notRBrace).tail.head? = some '}' then
          rest.tail.takeWhile notRBrace ++ cleanAux fuel (rest.tail.dropWhile notRBrace).tail.tail
        else c :: cleanAux fuel rest
      else c :: cleanAux fuel rest := rfl

theorem hasPlaceholderAux_nil (fuel : Nat) : hasPlaceholderAux fuel [] = false := by
  cases fuel <;> rfl

theorem hasPlaceholderAux_cons (fuel : Nat) (c : Char) (rest : List Char) :
    hasPlaceholderAux (fuel+1) (c :: rest) =
      if c = '{' ∧ rest.head? = some '{' then
        if (rest.tail.takeWhile notRBrace).isEmpty then hasPlaceholderAux fuel rest
        else if (rest.tail.dropWhile notRBrace).head? = some '}' ∧
            (rest.tail.dropWhile notRBrace).tail.head? = some '}' then
          true
        else hasPlaceholderAux fuel rest
      else hasPlaceholderAux fuel rest := rfl

theorem takeWhile_append_all (p : Char → Bool) (u v : List Char) (h : ∀ c ∈ u, p c = true) :
    (u ++ v).takeWhile p = u ++ v.takeWhile p ∧ (u ++ v).dropWhile p = v.dropWhile p := by
  induction u with
  | nil => exact ⟨rfl, rfl⟩
  | cons a t ih =>
    have ha : p a = true := h a (List.mem_cons_self a t)
    obtain ⟨iht, ihd⟩ := ih (fun c hc => h c (List.mem_cons_of_mem a hc))
    refine ⟨?_, ?_⟩
    · rw [List.cons_append, List.takeWhile_cons, ha, iht]
      rfl
    · rw [List.cons_append, List.dropWhile_cons, ha, ihd]
      simp

theorem takeWhile_append_stop (p : Char → Bool) (u v : List Char) (h : u.dropWhile p ≠ []) :
    (u ++ v).takeWhile p = u.takeWhile p ∧ (u ++ v).dropWhile p = u.dropWhile p ++ v := by
  induction u with
  | nil => simp at h
  | cons a t ih =>
    by_cases hp : p a = true
    · have h' : t.dropWhile p ≠ [] := by
        rw [List.dropWhile_cons, hp] at h
        simpa using h
      obtain ⟨iht, ihd⟩ := ih h'
      refine ⟨?_, ?_⟩
      · rw [List.cons_append, List.takeWhile_cons, hp, iht, List.takeWhile_cons, hp]
      · rw [List.cons_append, List.dropWhile_cons, hp, ihd]
        simp [List.dropWhile_cons, hp]
    · have hpf : p a = false := Bool.eq_false_iff.mpr hp
      refine ⟨?_, ?_⟩
      · rw [List.cons_append, List.takeWhile_cons, hpf, List.takeWhile_cons, hpf]
        simp
      · rw [List.cons_append, List.dropWhile_cons, hpf, List.dropWhile_cons, hpf]
        simp

theorem cleanStep_len (rest : List Char) :
    ((rest.tail.dropWhile notRBrace).tail.tail).length ≤ rest.length := by
  have h1 := (List.dropWhile_suffix (l := rest.tail) notRBrace).length_le
  have h2 : rest.tail.length = rest.length - 1 := List.length_tail rest
  have h3 : ((rest.tail.dropWhile notRBrace).tail.tail).length
      = (rest.tail.dropWhile notRBrace).length - 1 - 1 := by
    rw [List.length_tail, List.length_tail]
  omega

theorem cleanAux_fuel_congr : ∀ (f1 : Nat) (l : List Char) (f2 : Nat),
    l.length ≤ f1 → l.length ≤ f2 → cleanAux f1 l = cleanAux f2 l := by
  intro f1
  induction f1 with
  | zero =>
    intro l f2 h1 _
    have : l = [] := List.length_eq_zero.mp (Nat.le_antisymm h1 (Nat.zero_le _))
    subst this
    rw [cleanAux_nil, cleanAux_nil]
  | succ f ih =>
    intro l f2 h1 h2
    cases l with
    | nil => rw [cleanAux_nil, cleanAux_nil]
    | cons c rest =>
      cases f2 with
      | zero => simp at h2
      | succ g =>
        rw [cleanAux_cons, cleanAux_cons]
        have hr : rest.length ≤ f := by simp at h1; omega
        have hrg : rest.length ≤ g := by simp at h2; omega
        have hs : ((rest.tail.dropWhile notRBrace).tail.tail).length ≤ rest.length :=
          cleanStep_len rest
        by_cases hc : c = '{' ∧ rest.head? = some '{'
        · rw [if_pos hc, if_pos hc]
          by_cases he : (rest.tail.takeWhile notRBrace).isEmpty
          · rw [if_pos he, if_pos he, ih rest g hr hrg]
          · rw [if_neg he, if_neg he]
            by_cases hcl : (rest.tail.dropWhile notRBrace).head? = some '}' ∧
                (rest.tail.dropWhile notRBrace).tail.head? = some '}'
            · rw [if_pos hcl, if_pos hcl,
                ih ((rest.tail.dropWhile notRBrace).tail.tail) g (le_trans hs hr) (le_trans hs hrg)]
            · rw [if_neg hcl, if_neg hcl, ih rest g hr hrg]
        · rw [if_neg hc, if_neg hc, ih rest g hr hrg]

theorem cleanAux_no_open : ∀ (u : List Char) (fuel : Nat) (m : List Char),
    (u ++ m).length ≤ fuel → '{' ∉ u →
    cleanAux fuel (u ++ m) = u ++ cleanList m := by
  intro u
  induction u with
  | nil =>
    intro fuel m h _
    rw [List.nil_append, List.nil_append, cleanList]
    exact cleanAux_fuel_congr fuel m m.length (by simpa using h) le_rfl
  | cons a t ih =>
    intro fuel m h hu
    have ha : ¬(a = '{' ∧ (t ++ m).head? = some '{') := by
      intro hc
      exact hu (hc.1 ▸ List.mem_cons_self a t)
    cases fuel with
    | zero => simp at h
    | succ f =>
      rw [List.cons_append, cleanAux_cons, if_neg ha, List.cons_append,
        ih f m (by simp at h ⊢; omega) (fun hm => hu (List.mem_cons_of_mem a hm))]

theorem notRBrace_iff (c : Char) : notRBrace c = true ↔ c ≠ '}' := by
  simp [notRBrace]

theorem cleanList_no_open (m : List Char) (h : '{' ∉ m) : cleanList m = m := by
  have := cleanAux_no_open m m.length [] (by simp) h
  rw [List.append_nil] at this
  rw [cleanList, this, cleanList, cleanAux_nil, List.append_nil]

theorem cleanAux_match (fuel : Nat) (x b : List Char)
    (hx : x ≠ []) (hxc : ∀ c ∈ x, c ≠ '}')
    (hf : ('{' :: '{' :: (x ++ '}' :: '}' :: b)).length ≤ fuel) :
    cleanAux fuel ('{' :: '{' :: (x ++ '}' :: '}' :: b)) = x ++ cleanList b := by
  cases fuel with
  | zero => simp at hf
  | succ f =>
    rw [cleanAux_cons, if_pos ⟨rfl, rfl⟩]
    have hall : ∀ c ∈ x, notRBrace c = true := fun c hc => (notRBrace_iff c).mpr (hxc c hc)
    obtain ⟨ht, hd⟩ := takeWhile_append_all notRBrace x ('}' :: '}' :: b) hall
    have htw : (('{' :: (x ++ '}' :: '}' :: b)).tail.takeWhile notRBrace) = x := by
      rw [List.tail_cons, ht]
      simp [List.takeWhile_cons, notRBrace]
    have hdw : (('{' :: (x ++ '}' :: '}' :: b)).tail.dropWhile notRBrace) = '}' :: '}' :: b := by
      rw [List.tail_cons, hd]
      simp [List.dropWhile_cons, notRBrace]
    rw [htw, hdw]
    rw [if_neg (by simpa [List.isEmpty_iff] using hx), if_pos ⟨rfl, rfl⟩]
    congr 1
    rw [List.tail_cons, List.tail_cons, cleanList]
    refine cleanAux_fuel_congr f b b.length ?_ le_rfl
    simp at hf
    omega

theorem hasPlaceholder_false_unchanged : ∀ (fuel : Nat) (l : List Char),
    l.length ≤ fuel → hasPlaceholderAux fuel l = false → cleanAux fuel l = l := by
  intro fuel
  induction fuel with
  | zero =>
    intro l h _
    have : l = [] := List.length_eq_zero.mp (Nat.le_antisymm h (Nat.zero_le _))
    subst this
    rw [cleanAux_nil]
  | succ f ih =>
    intro l hl hp
    cases l with
    | nil => exact cleanAux_nil _
    | cons c rest =>
      rw [cleanAux_cons]
      rw [hasPlaceholderAux_cons] at hp
      have hr : rest.length ≤ f := by simp at hl; omega
      by_cases h1 : c = '{' ∧ rest.head? = some '{'
      · rw [if_pos h1] at hp ⊢
        by_cases h2 : (rest.tail.takeWhile notRBrace).isEmpty
        · rw [if_pos h2] at hp ⊢
          rw [ih rest hr hp]
        · rw [if_neg h2] at hp ⊢
          by_cases h3 : (rest.tail.dropWhile notRBrace).head? = some '}' ∧
              (rest.tail.dropWhile notRBrace).tail.head? = some '}'
          · rw [if_pos h3] at hp
            exact absurd hp (by simp)
          · rw [if_neg h3] at hp ⊢
            rw [ih rest hr hp]
      · rw [if_neg h1] at hp ⊢
        rw [ih rest hr hp]

theorem cleanAux_keeps_inner : ∀ (fuel : Nat) (a x b : List Char),
    (a ++ '{' :: '{' :: (x ++ '}' :: '}' :: b)).length ≤ fuel →
    x ≠ [] → (∀ c ∈ x, c ≠ '}') →
    ∃ s t, cleanAux fuel (a ++ '{' :: '{' :: (x ++ '}' :: '}' :: b)) = s ++ x ++ t := by
  intro fuel
  induction fuel with
  | zero =>
    intro a x b h _ _
    exfalso
    simp [List.length_append] at h
  | succ f ih =>
    intro a x b hlen hx hxc
    cases a with
    | nil =>
      refine ⟨[], cleanList b, ?_⟩
      rw [List.nil_append] at hlen ⊢
      rw [cleanAux_match (f+1) x b hx hxc hlen, List.nil_append]
    | cons c a' =>
      rw [List.cons_append] at hlen ⊢
      by_cases hc : c = '{' ∧ (a' ++ '{' :: '{' :: (x ++ '}' :: '}' :: b)).head? = some '{'
      · obtain ⟨rfl, hh⟩ := hc
        cases a' with
        | nil =>
          rw [List.nil_append] at hlen ⊢
          rw [cleanAux_cons, if_pos ⟨rfl, rfl⟩]
          have hall : ∀ cc ∈ ('{' :: x), notRBrace cc = true := by
            intro cc hcc
            rcases List.mem_cons.mp hcc with h' | h'
            · rw [h']; rfl
            · exact (notRBrace_iff cc).mpr (hxc cc h')
          obtain ⟨ht, hd⟩ := takeWhile_append_all notRBrace ('{' :: x) ('}' :: '}' :: b) hall
          have htw : (('{' :: '{' :: (x ++ '}' :: '}' :: b)).tail.takeWhile notRBrace)
              = '{' :: x := by
            rw [List.tail_cons]
            rw [show ('{' : Char) :: (x ++ '}' :: '}' :: b)
              = ('{' :: x) ++ ('}' :: '}' :: b) by simp, ht]
            simp [List.takeWhile_cons, notRBrace]
          have hdw : (('{' :: '{' :: (x ++ '}' :: '}' :: b)).tail.dropWhile notRBrace)
              = '}' :: '}' :: b := by
            rw [List.tail_cons]
            rw [show ('{' : Char) :: (x ++ '}' :: '}' :: b)
              = ('{' :: x) ++ ('}' :: '}' :: b) by simp, hd]
            simp [List.dropWhile_cons, notRBrace]
          rw [htw, hdw]
          rw [if_neg (by simp), if_pos ⟨rfl, rfl⟩]
          refine ⟨['{'], cleanAux f ('}' :: '}' :: b).tail.tail, ?_⟩
          simp
        | cons d a'' =>
          have hd0 : d = '{' := by simpa using hh
          subst hd0
          rw [List.cons_append] at hlen ⊢
          rw [cleanAux_cons, if_pos ⟨rfl, rfl⟩]
          rw [List.tail_cons]
          have hlen' : (('{' :: a'') ++ '{' :: '{' :: (x ++ '}' :: '}' :: b)).length ≤ f := by
            simp [List.length_append] at hlen ⊢
            omega
          by_cases hbr : '}' ∈ a''
          · -- the first closing brace lies inside a''
            have hstop : a''.dropWhile notRBrace ≠ [] := by
              intro hnil
              have := List.dropWhile_eq_nil_iff.mp hnil '}' hbr
              simp [notRBrace] at this
            obtain ⟨ht, hd⟩ :=
              takeWhile_append_stop notRBrace a'' ('{' :: '{' :: (x ++ '}' :: '}' :: b)) hstop
            rw [ht, hd]
            cases hdw : a''.dropWhile notRBrace with
            | nil => exact absurd hdw hstop
            | cons e q =>
              have he : e = '}' := by
                have := head?_dropWhile_false notRBrace a'' e (by rw [hdw]; rfl)
                simpa [notRBrace] using this
              subst he
              by_cases hemp : (a''.takeWhile notRBrace).isEmpty
              · rw [if_pos hemp]
                obtain ⟨s, t, hst⟩ := ih ('{' :: a'') x b hlen' hx hxc
                rw [List.cons_append] at hst
                exact ⟨'{' :: s, t, by rw [hst]; simp⟩
              · rw [if_neg hemp]
                cases q with
                | nil =>
                  rw [if_neg (by rintro ⟨-, h2⟩; simp at h2)]
                  obtain ⟨s, t, hst⟩ := ih ('{' :: a'') x b hlen' hx hxc
                  rw [List.cons_append] at hst
                  exact ⟨'{' :: s, t, by rw [hst]; simp⟩
                | cons e2 q'' =>
                  by_cases he2 : e2 = '}'
                  · subst he2
                    rw [if_pos ⟨rfl, rfl⟩]
                    have hlen'' : (q'' ++ '{' :: '{' :: (x ++ '}' :: '}' :: b)).length ≤ f := by
                      have hsp := congrArg List.length
                        (List.takeWhile_append_dropWhile (p := notRBrace) (l := a''))
                      rw [hdw] at hsp
                      simp [List.length_append] at hsp hlen ⊢
                      omega
                    obtain ⟨s, t, hst⟩ := ih q'' x b hlen'' hx hxc
                    refine ⟨a''.takeWhile notRBrace ++ s, t, ?_⟩
                    simp only [List.cons_append, List.tail_cons]
                    rw [hst]
                    simp
                  · rw [if_neg (by rintro ⟨-, h2⟩; simp at h2; exact he2 h2)]
                    obtain ⟨s, t, hst⟩ := ih ('{' :: a'') x b hlen' hx hxc
                    rw [List.cons_append] at hst
                    exact ⟨'{' :: s, t, by rw [hst]; simp⟩
          · -- no closing brace in a'': the match engulfs a'' and the opening braces
            have hall : ∀ cc ∈ (a'' ++ '{' :: '{' :: x), notRBrace cc = true := by
              intro cc hcc
              rcases List.mem_append.mp hcc with h' | h'
              · refine (notRBrace_iff cc).mpr (fun hcc' => hbr ?_)
                rw [← hcc']; exact h'
              · rcases List.mem_cons.mp h' with h'' | h''
                · rw [h'']; rfl
                · rcases List.mem_cons.mp h'' with h3 | h3
                  · rw [h3]; rfl
                  · exact (notRBrace_iff cc).mpr (hxc cc h3)
            obtain ⟨ht, hd⟩ :=
              takeWhile_append_all notRBrace (a'' ++ '{' :: '{' :: x) ('}' :: '}' :: b) hall
            have e2 : a'' ++ '{' :: '{' :: (x ++ '}' :: '}' :: b)
                = (a'' ++ '{' :: '{' :: x) ++ ('}' :: '}' :: b) := by simp
            rw [e2, ht, hd]
            rw [if_neg (by simp), if_pos ⟨rfl, rfl⟩]
            refine ⟨a'' ++ ['{', '{'],
              cleanAux f (('}' :: '}' :: b).dropWhile notRBrace).tail.tail, ?_⟩
            have : ('}' :: '}' :: b).takeWhile notRBrace = [] := by
              simp [List.takeWhile_cons, notRBrace]
            rw [this, List.append_nil]
            simp [List.dropWhile_cons, notRBrace]
      · rw [cleanAux_cons, if_neg hc]
        obtain ⟨s, t, hst⟩ := ih a' x b (by simp [List.length_append] at hlen ⊢; omega) hx hxc
        exact ⟨c :: s, t, by rw [hst]; rfl⟩

theorem cleanList_wellformed (a x b : List Char)
    (hx : x ≠ []) (hxr : '}' ∉ x)
    (hal : '{' ∉ a) (hbl : '{' ∉ b) :
    cleanList (a ++ '{' :: '{' :: (x ++ '}' :: '}' :: b)) = a ++ (x ++ b) := by
  rw [cleanList, cleanAux_no_open a _ _ le_rfl hal]
  congr 1
  rw [cleanList, cleanAux_match _ x b hx (fun c hc hce => hxr (hce ▸ hc)) le_rfl,
    cleanList_no_open b hbl]

/-- C3 (counterexample): the input `"{{a}}{{"` (written with escaped braces)
contains the placeholder `{{a}}` with inner text `"a"`, yet
`cleanPostmanVariables` maps it to `"a{{"`, whose text still contains an
occurrence of `{{` — so the claim that the output of an input containing a
placeholder never contains `{{` is false. -/
theorem cleanTemplateVariables_counterexample :
    ("\x7b\x7ba\x7d\x7d\x7b\x7b" : String).data
      = [] ++ '{' :: '{' :: (['a'] ++ '}' :: '}' :: ['{', '{']) ∧
    cleanPostmanVariables "\x7b\x7ba\x7d\x7d\x7b\x7b" = "a\x7b\x7b" ∧
    (∃ s t, (cleanPostmanVariables "\x7b\x7ba\x7d\x7d\x7b\x7b").data
      = s ++ ['{', '{'] ++ t) :=
  ⟨by decide, by decide, ⟨['a'], [], by decide⟩⟩

/-- C3 (amended): for every text containing a placeholder `{{X}}` (`X`
nonempty and free of `}`), the output still contains `X` as a contiguous
segment; if moreover every brace of the text belongs to that placeholder
(here: the surrounding text and `X` are brace-free), the output is exactly
the text with the placeholder replaced by `X` and contains no brace at all
(hence no `{{` and no `}}`); a string the placeholder regex does not match
anywhere is returned unchanged; non-string input is returned unchanged. -/
theorem cleanTemplateVariables_amended :
    (∀ a x b : List Char, x ≠ [] → (∀ c ∈ x, c ≠ '}') →
      ∃ s t, (cleanPostmanVariables ⟨a ++ '{' :: '{' :: (x ++ '}' :: '}' :: b)⟩).data
        = s ++ x ++ t) ∧
    (∀ a x b : List Char, x ≠ [] → '}' ∉ x → '{' ∉ x →
        '{' ∉ a → '}' ∉ a → '{' ∉ b → '}' ∉ b →
      cleanPostmanVariables ⟨a ++ '{' :: '{' :: (x ++ '}' :: '}' :: b)⟩ = ⟨a ++ (x ++ b)⟩ ∧
      '{' ∉ a ++ (x ++ b) ∧ '}' ∉ a ++ (x ++ b)) ∧
    (∀ s : String, hasPlaceholder s = false → cleanPostmanVariables s = s) ∧
    (∀ v : JsValue, (∀ s, v ≠ JsValue.vstr s) → cleanPostmanVariablesJs v = v) := by
  refine ⟨?_, ?_, ?_, ?_⟩
  · intro a x b hx hxc
    exact cleanAux_keeps_inner _ a x b le_rfl hx hxc
  · intro a x b hx hxr hxl hal har hbl hbr
    refine ⟨?_, ?_, ?_⟩
    · show (⟨cleanList (a ++ '{' :: '{' :: (x ++ '}' :: '}' :: b))⟩ : String) = _
      rw [cleanList_wellformed a x b hx hxr hal hbl]
    · intro hmem
      rcases List.mem_append.mp hmem with h | h
      · exact hal h
      · rcases List.mem_append.mp h with h' | h'
        · exact hxl h'
        · exact hbl h'
    · intro hmem
      rcases List.mem_append.mp hmem with h | h
      · exact har h
      · rcases List.mem_append.mp h with h' | h'
        · exact hxr h'
        · exact hbr h'
  · intro s hs
    have := hasPlaceholder_false_unchanged s.data.length s.data le_rfl hs
    show (⟨cleanList s.data⟩ : String) = s
    rw [cleanList, this]
  · intro v hv
    cases v with
    | vstr s => exact absurd rfl (hv s)
    | vnum n => rfl
    | vbool b => rfl
    | vnull => rfl
    | vundef => rfl

/-- Witness for the amended C3 at concrete inputs (`"{{id}}"`, `"u{{id}}z"`,
`"plain"`, `null`). -/
theorem cleanTemplateVariables_amended_witness :
    (∃ s t, (cleanPostmanVariables ⟨[] ++ '{' :: '{' :: (['i', 'd'] ++ '}' :: '}' :: [])⟩).data
        = s ++ ['i', 'd'] ++ t) ∧
    (cleanPostmanVariables ⟨['u'] ++ '{' :: '{' :: (['i', 'd'] ++ '}' :: '}' :: ['z'])⟩
        = ⟨['u'] ++ (['i', 'd'] ++ ['z'])⟩ ∧
      '{' ∉ ['u'] ++ (['i', 'd'] ++ ['z']) ∧ '}' ∉ ['u'] ++ (['i', 'd'] ++ ['z'])) ∧
    cleanPostmanVariables "plain" = "plain" ∧
    cleanPostmanVariablesJs JsValue.vnull = JsValue.vnull :=
  ⟨cleanTemplateVariables_amended.1 [] ['i', 'd'] [] (by decide) (by decide),
   cleanTemplateVariables_amended.2.1 ['u'] ['i', 'd'] ['z'] (by decide) (by decide)
     (by decide) (by decide) (by decide) (by decide) (by decide),
   cleanTemplateVariables_amended.2.2.1 "plain" (by decide),
   cleanTemplateVariables_amended.2.2.2 JsValue.vnull (fun s h => JsValue.noConfusion h)⟩

/-! ## The JSON response formatter (src/index.js lines 791-802)

The source attempts `JSON.parse(response.body)` and, on success, replaces
the displayed body by `JSON.stringify(parsed, null, 2)`; on failure it
keeps the original text and never throws.  The two built-ins are modelled
by an executable parser/printer pair over a JSON value type.  Numbers are
modelled as integers (a body with a fractional or exponent part simply
fails to parse in the model, which exercises the same fallback branch);
object fields keep their parsed order, as `JSON.parse` does. -/

mutual
inductive Json where
  | jnull
  | jbool (b : Bool)
  | jnum (n : Int)
  | jstr (s : String)
  | jarr (xs : JsonList)
  | jobj (fs : JsonFields)
inductive JsonList where
  | jlnil
  | jlcons (hd : Json) (tl : JsonList)
inductive JsonFields where
  | jfnil
  | jfcons (key : String) (val : Json) (tl : JsonFields)
end

deriving instance DecidableEq for Json

def isJsonWs (c : Char) : Bool :=
  decide (c.toNat = 32) || decide (c.toNat = 9) || decide (c.toNat = 10) || decide (c.toNat = 13)

def skipWs (l : List Char) : List Char := l.dropWhile isJsonWs

def isDigitChar (c : Char) : Bool := decide (48 ≤ c.toNat ∧ c.toNat ≤ 57)

def digitVal (c : Char) : Nat := c.toNat - 48

def digitToChar (d : Nat) : Char := Char.ofNat (48 + d)

def hexDigitChar (d : Nat) : Char :=
  if d < 10 then Char.ofNat (48 + d) else Char.ofNat (87 + d)

def hexVal (c : Char) : Option Nat :=
  if 48 ≤ c.toNat ∧ c.toNat ≤ 57 then some (c.toNat - 48)
  else if 97 ≤ c.toNat ∧ c.toNat ≤ 102 then some (c.toNat - 87)
  else if 65 ≤ c.toNat ∧ c.toNat ≤ 70 then some (c.toNat - 55)
  else none

def spacesList : Nat → List Char
  | 0 => []
  | n+1 => ' ' :: spacesList n

/-- Little-endian decimal digits of `n` (empty for `0`); the fuel is
instantiated with `n` itself, which suffices. -/
def natDigitsRev : Nat → Nat → List Nat
  | 0, _ => []
  | fuel+1, n => if n = 0 then [] else (n % 10) :: natDigitsRev fuel (n / 10)

def printNat (n : Nat) : List Char :=
  if n = 0 then ['0'] else (natDigitsRev n n).reverse.map digitToChar

def printInt (n : Int) : List Char :=
  if n < 0 then '-' :: printNat (-n).toNat else printNat n.toNat

/-- One character of `JSON.stringify` string escaping. -/
def escapeChar (c : Char) : List Char :=
  if c = '"' then ['\\', '"']
  else if c = '\\' then ['\\', '\\']
  else if c = '\n' then ['\\', 'n']
  else if c = '\r' then ['\\', 'r']
  else if c = '\t' then ['\\', 't']
  else if c.toNat = 8 then ['\\', 'b']
  else if c.toNat = 12 then ['\\', 'f']
  else if c.toNat < 32 then
    ['\\', 'u', '0', '0', hexDigitChar (c.toNat / 16), hexDigitChar (c.toNat % 16)]
  else [c]

def printJString (s : String) : List Char :=
  '"' :: (s.data.map escapeChar).flatten ++ ['"']

mutual
def printJson (ind : Nat) : Json → List Char
  | .jnull => ['n', 'u', 'l', 'l']
  | .jbool true => ['t', 'r', 'u', 'e']
  | .jbool false => ['f', 'a', 'l', 's', 'e']
  | .jnum n => printInt n
  | .jstr s => printJString s
  | .jarr .jlnil => ['[', ']']
  | .jarr (.jlcons x xs) =>
    '[' :: '\n' :: (spacesList (ind+2) ++ printJson (ind+2) x ++ printJsonItems (ind+2) xs
      ++ '\n' :: (spacesList ind ++ [']']))
  | .jobj .jfnil => ['{', '}']
  | .jobj (.jfcons k v fs) =>
    '{' :: '\n' :: (spacesList (ind+2) ++ printJString k ++ ':' :: ' ' :: printJson (ind+2) v
      ++ printJsonFields (ind+2) fs ++ '\n' :: (spacesList ind ++ ['}']))
def printJsonItems (ind : Nat) : JsonList → List Char
  | .jlnil => []
  | .jlcons x xs => ',' :: '\n' :: (spacesList ind ++ printJson ind x ++ printJsonItems ind xs)
def printJsonFields (ind : Nat) : JsonFields → List Char
  | .jfnil => []
  | .jfcons k v fs =>
    ',' :: '\n' :: (spacesList ind ++ printJString k ++ ':' :: ' ' :: printJson ind v
      ++ printJsonFields ind fs)
end

/-- `JSON.stringify(v, null, 2)`. -/
def jsonStringify2 (v : Json) : String := ⟨printJson 0 v⟩

/-- JSON string-body parser: input follows the opening quote; returns the
decoded characters and the input past the closing quote. -/
def parseJStringBody : List Char → Option (List Char × List Char)
  | [] => none
  | c :: rest =>
    if c = '"' then some ([], rest)
    else if c = '\\' then
      match rest with
      | [] => none
      | e :: rest2 =>
        if e = '"' then (parseJStringBody rest2).map (fun p => ('"' :: p.1, p.2))
        else if e = '\\' then (parseJStringBody rest2).map (fun p => ('\\' :: p.1, p.2))
        else if e = '/' then (parseJStringBody rest2).map (fun p => ('/' :: p.1, p.2))
        else if e = 'b' then (parseJStringBody rest2).map (fun p => (Char.ofNat 8 :: p.1, p.2))
        else if e = 'f' then (parseJStringBody rest2).map (fun p => (Char.ofNat 12 :: p.1, p.2))
        else if e = 'n' then (parseJStringBody rest2).map (fun p => ('\n' :: p.1, p.2))
        else if e = 'r' then (parseJStringBody rest2).map (fun p => ('\r' :: p.1, p.2))
        else if e = 't' then (parseJStringBody rest2).map (fun p => ('\t' :: p.1, p.2))
        else if e = 'u' then
          match rest2 with
          | h1 :: h2 :: h3 :: h4 :: rest3 =>
            match hexVal h1, hexVal h2, hexVal h3, hexVal h4 with
            | some d1, some d2, some d3, some d4 =>
              (parseJStringBody rest3).map
                (fun p => (Char.ofNat (((d1 * 16 + d2) * 16 + d3) * 16 + d4) :: p.1, p.2))
            | _, _, _, _ => none
          | _ => none
        else none
    else if c.toNat < 32 then none
    else (parseJStringBody rest).map (fun p => (c :: p.1, p.2))

/-- Nonnegative integer literal: a nonempty digit run without a redundant
leading zero. -/
def parseNatNum (l : List Char) : Option (Nat × List Char) :=
  if (l.takeWhile isDigitChar).isEmpty then none
  else if (l.takeWhile isDigitChar).head? = some '0' ∧ (l.takeWhile isDigitChar).length ≠ 1 then
    none
  else
    some ((l.takeWhile isDigitChar).foldl (fun a c => a * 10 + digitVal c) 0,
      l.dropWhile isDigitChar)

def parseNumber (l : List Char) : Option (Int × List Char) :=
  if l.head? = some '-' then (parseNatNum l.tail).map (fun p => (-(p.1 : Int), p.2))
  else (parseNatNum l).map (fun p => ((p.1 : Int), p.2))

mutual
def parseJson : Nat → List Char → Option (Json × List Char)
  | 0, _ => none
  | fuel+1, l0 =>
    match skipWs l0 with
    | [] => none
    | c :: rest =>
      if c = 'n' then
        if rest.take 3 = ['u', 'l', 'l'] then some (.jnull, rest.drop 3) else none
      else if c = 't' then
        if rest.take 3 = ['r', 'u', 'e'] then some (.jbool true, rest.drop 3) else none
      else if c = 'f' then
        if rest.take 4 = ['a', 'l', 's', 'e'] then some (.jbool false, rest.drop 4) else none
      else if c = '"' then
        match parseJStringBody rest with
        | some (s, r) => some (.jstr ⟨s⟩, r)
        | none => none
      else if c = '[' then
        if (skipWs rest).head? = some ']' then some (.jarr .jlnil, (skipWs rest).tail)
        else
          match parseJson fuel rest with
          | some (v, r2) =>
            match parseJsonItems fuel r2 with
            | some (vs, r3) => some (.jarr (.jlcons v vs), r3)
            | none => none
          | none => none
      else if c = '{' then
        if (skipWs rest).head? = some '}' then some (.jobj .jfnil, (skipWs rest).tail)
        else
          match parseJsonField fuel rest with
          | some (k, v, r2) =>
            match parseJsonFieldsRest fuel r2 with
            | some (fs, r3) => some (.jobj (.jfcons k v fs), r3)
            | none => none
          | none => none
      else if c = '-' ∨ isDigitChar c = true then
        match parseNumber (c :: rest) with
        | some (n, r) => some (.jnum n, r)
        | none => none
      else none
def parseJsonItems : Nat → List Char → Option (JsonList × List Char)
  | 0, _ => none
  | fuel+1, l0 =>
    match skipWs l0 with
    | [] => none
    | c :: rest =>
      if c = ']' then some (.jlnil, rest)
      else if c = ',' then
        match parseJson fuel rest with
        | some (v, r2) =>
          match parseJsonItems fuel r2 with
          | some (vs, r3) => some (.jlcons v vs, r3)
          | none => none
        | none => none
      else none
def parseJsonField : Nat → List Char → Option (String × Json × List Char)
  | 0, _ => none
  | fuel+1, l0 =>
    match skipWs l0 with
    | [] => none
    | c :: rest =>
      if c = '"' then
        match parseJStringBody rest with
        | some (k, r2) =>
          if (skipWs r2).head? = some ':' then
            match parseJson fuel (skipWs r2).tail with
            | some (v, r3) => some (⟨k⟩, v, r3)
            | none => none
          else none
        | none => none
      else none
def parseJsonFieldsRest : Nat → List Char → Option (JsonFields × List Char)
  | 0, _ => none
  | fuel+1, l0 =>
    match skipWs l0 with
    | [] => none
    | c :: rest =>
      if c = '}' then some (.jfnil, rest)
      else if c = ',' then
        match parseJsonField fuel rest with
        | some (k, v, r2) =>
          match parseJsonFieldsRest fuel r2 with
          | some (fs, r3) => some (.jfcons k v fs, r3)
          | none => none
        | none => none
      else none
end

/-- `JSON.parse`: parse one value and require only whitespace afterwards. -/
def jsonParse (s : String) : Option Json :=
  match parseJson (s.data.length + 1) s.data with
  | some (v, rest) => if (skipWs rest).isEmpty then some v else none
  | none => none

/-- The response-body formatting branch of `generateEndpointContent`: when
the resolved language is `json`, try to parse and pretty-print with 2-space
indentation, keeping the original text on failure; other languages pass
through. Total by construction (the catch branch is the `none` case). -/
def formatResponseBody (language : String) (body : String) : String :=
  if language = "json" then
    match jsonParse body with
    | some parsed => jsonStringify2 parsed
    | none => body
  else body

/-! ### Round-trip properties of the JSON model -/

theorem skipWs_cons_of_ws {c : Char} (l : List Char) (h : isJsonWs c = true) :
    skipWs (c :: l) = skipWs l := by
  rw [skipWs, List.dropWhile_cons, h]
  rfl

theorem skipWs_cons_of_not {c : Char} (l : List Char) (h : isJsonWs c = false) :
    skipWs (c :: l) = c :: l := by
  rw [skipWs, List.dropWhile_cons, h]
  rfl

theorem skipWs_spaces (n : Nat) (l : List Char) : skipWs (spacesList n ++ l) = skipWs l := by
  induction n with
  | zero => rfl
  | succ m ih =>
    rw [spacesList, List.cons_append, skipWs_cons_of_ws _ (by decide), ih]

theorem skipWs_newline (l : List Char) : skipWs ('\n' :: l) = skipWs l :=
  skipWs_cons_of_ws l (by decide)

theorem skipWs_idem (l : List Char) : skipWs (skipWs l) = skipWs l := by
  induction l with
  | nil => rfl
  | cons c t ih =>
    by_cases h : isJsonWs c = true
    · rw [skipWs_cons_of_ws _ h, ih]
    · have h' : isJsonWs c = false := Bool.eq_false_iff.mpr h
      rw [skipWs_cons_of_not _ h', skipWs_cons_of_not _ h']

theorem digitToChar_toNat (d : Nat) (h : d < 10) : (digitToChar d).toNat = 48 + d :=
  toNat_ofNat_valid _ (Or.inl (by omega))

theorem natDigitsRev_lt10 : ∀ (fuel n : Nat), ∀ d ∈ natDigitsRev fuel n, d < 10 := by
  intro fuel
  induction fuel with
  | zero => intro n d hd; simp [natDigitsRev] at hd
  | succ f ih =>
    intro n d hd
    rw [natDigitsRev] at hd
    split at hd
    · simp at hd
    · rcases List.mem_cons.mp hd with h | h
      · omega
      · exact ih _ d h

theorem natDigitsRev_ne_nil (fuel n : Nat) (h0 : 0 < n) (hf : 0 < fuel) :
    natDigitsRev fuel n ≠ [] := by
  cases fuel with
  | zero => omega
  | succ f =>
    rw [natDigitsRev, if_neg (by omega)]
    simp

theorem natDigitsRev_getLast_ne_zero : ∀ (fuel n : Nat), 0 < n → n ≤ fuel →
    ∀ d, (natDigitsRev fuel n).getLast? = some d → d ≠ 0 := by
  intro fuel
  induction fuel with
  | zero => intro n h0 hf; omega
  | succ f ih =>
    intro n h0 hf d hd
    rw [natDigitsRev, if_neg (by omega)] at hd
    by_cases hq : n / 10 = 0
    · have hrec : natDigitsRev f (n / 10) = [] := by
        cases f with
        | zero => rfl
        | succ g => rw [natDigitsRev, if_pos hq]
      rw [hrec] at hd
      simp at hd
      omega
    · have hne : natDigitsRev f (n / 10) ≠ [] := by
        refine natDigitsRev_ne_nil f (n / 10) (by omega) ?_
        omega
      cases hrep : natDigitsRev f (n / 10) with
      | nil => exact absurd hrep hne
      | cons e t =>
        rw [hrep, List.getLast?_cons_cons] at hd
        refine ih (n / 10) (by omega) (by omega) d ?_
        rw [hrep]
        exact hd

theorem foldl_digits : ∀ (fuel n acc : Nat), n ≤ fuel →
    ((natDigitsRev fuel n).reverse).foldl (fun a d => a * 10 + d) acc
      = acc * 10 ^ (natDigitsRev fuel n).length + n := by
  intro fuel
  induction fuel with
  | zero =>
    intro n acc h
    have : n = 0 := by omega
    subst this
    simp [natDigitsRev]
  | succ g ih =>
    intro n acc h
    by_cases h0 : n = 0
    · subst h0
      rw [natDigitsRev, if_pos rfl]
      simp
    · rw [natDigitsRev, if_neg h0]
      rw [List.reverse_cons, List.foldl_append]
      have hrec := ih (n / 10) acc (by omega)
      rw [hrec]
      simp only [List.foldl_cons, List.foldl_nil, List.length_cons]
      rw [pow_succ]
      have := Nat.div_add_mod n 10
      ring_nf
      omega

def headNotDigit (l : List Char) : Prop :=
  ∀ c, l.head? = some c → isDigitChar c = false

theorem printNat_ne_nil (n : Nat) : printNat n ≠ [] := by
  rw [printNat]
  split
  · simp
  · next h =>
    have := natDigitsRev_ne_nil n n (by omega) (by omega)
    simp [this]

theorem printNat_digits (n : Nat) : ∀ c ∈ printNat n, isDigitChar c = true := by
  intro c hc
  rw [printNat] at hc
  split at hc
  · simp at hc
    rw [hc]
    decide
  · obtain ⟨d, hd, rfl⟩ := List.mem_map.mp hc
    have hlt : d < 10 := natDigitsRev_lt10 n n d (List.mem_reverse.mp hd)
    simp only [isDigitChar, decide_eq_true_eq]
    rw [digitToChar_toNat d hlt]
    omega

theorem printNat_head_ne_zero (n : Nat) (h0 : n ≠ 0) :
    ∀ c, (printNat n).head? = some c → c ≠ '0' := by
  intro c hc
  rw [printNat, if_neg h0] at hc
  rw [List.head?_map, List.head?_reverse] at hc
  cases hg : (natDigitsRev n n).getLast? with
  | none => rw [hg] at hc; simp at hc
  | some d =>
    rw [hg] at hc
    simp only [Option.map_some', Option.some.injEq] at hc
    have hd0 : d ≠ 0 := natDigitsRev_getLast_ne_zero n n (by omega) le_rfl d hg
    have hlt : d < 10 := by
      have hmem : d ∈ natDigitsRev n n :=
        List.mem_of_mem_getLast? (by rw [hg]; rfl)
      exact natDigitsRev_lt10 n n d hmem
    intro he
    rw [← hc] at he
    have := digitToChar_toNat d hlt
    have h48 : ('0' : Char).toNat = 48 := by decide
    rw [he] at this
    omega

theorem takeWhile_nil_of_headNot (p : Char → Bool) (l : List Char)
    (h : ∀ c, l.head? = some c → p c = false) : l.takeWhile p = [] := by
  cases l with
  | nil => rfl
  | cons a t => rw [List.takeWhile_cons, h a rfl]; rfl

theorem dropWhile_self_of_headNot (p : Char → Bool) (l : List Char)
    (h : ∀ c, l.head? = some c → p c = false) : l.dropWhile p = l := by
  cases l with
  | nil => rfl
  | cons a t => rw [List.dropWhile_cons, h a rfl]; rfl

theorem printNat_foldl (n : Nat) :
    (printNat n).foldl (fun a c => a * 10 + digitVal c) 0 = n := by
  rw [printNat]
  split
  · next h => subst h; decide
  · next h =>
    rw [List.foldl_map]
    have hext : ∀ (a : Nat), ∀ d ∈ (natDigitsRev n n).reverse,
        a * 10 + digitVal (digitToChar d) = a * 10 + d := by
      intro a d hd
      have hlt : d < 10 := natDigitsRev_lt10 n n d (List.mem_reverse.mp hd)
      rw [digitVal, digitToChar_toNat d hlt]
      omega
    rw [List.foldl_ext _ (fun a d => a * 10 + d) 0 hext]
    rw [foldl_digits n n 0 le_rfl]
    simp

theorem parseNatNum_printNat (n : Nat) (rest : List Char) (hrest : headNotDigit rest) :
    parseNatNum (printNat n ++ rest) = some (n, rest) := by
  have hall : ∀ c ∈ printNat n, isDigitChar c = true := printNat_digits n
  obtain ⟨ht, hd⟩ := takeWhile_append_all isDigitChar (printNat n) rest hall
  have htw : (printNat n ++ rest).takeWhile isDigitChar = printNat n := by
    rw [ht, takeWhile_nil_of_headNot _ _ hrest, List.append_nil]
  have hdw : (printNat n ++ rest).dropWhile isDigitChar = rest := by
    rw [hd, dropWhile_self_of_headNot _ _ hrest]
  rw [parseNatNum, htw, hdw]
  rw [if_neg (by simpa using printNat_ne_nil n)]
  rw [if_neg ?hz]
  · rw [printNat_foldl n]
  case hz =>
    rintro ⟨hhead, hlen⟩
    by_cases h0 : n = 0
    · subst h0
      exact hlen (by decide)
    · exact printNat_head_ne_zero n h0 '0' hhead rfl

theorem printNat_headNotDash (n : Nat) :
    ∀ c, (printNat n).head? = some c → ¬(c = '-') := by
  intro c hc he
  subst he
  cases hrep : printNat n with
  | nil => exact printNat_ne_nil n hrep
  | cons a t =>
    rw [hrep] at hc
    simp only [List.head?_cons, Option.some.injEq] at hc
    have := printNat_digits n '-' (by rw [hrep, ← hc]; exact List.mem_cons_self a t)
    simp [isDigitChar] at this

theorem parseNumber_printInt (n : Int) (rest : List Char) (hrest : headNotDigit rest) :
    parseNumber (printInt n ++ rest) = some (n, rest) := by
  rw [printInt]
  split
  · next hneg =>
    rw [List.cons_append, parseNumber]
    rw [if_pos (by rfl)]
    rw [List.tail_cons, parseNatNum_printNat _ rest hrest]
    simp only [Option.map_some']
    congr 1
    congr 1
    omega
  · next hpos =>
    rw [parseNumber, if_neg ?hd]
    · rw [parseNatNum_printNat _ rest hrest]
      simp only [Option.map_some']
      congr 1
      congr 1
      omega
    case hd =>
      intro hh
      cases hrep : printNat n.toNat with
      | nil => exact printNat_ne_nil n.toNat hrep
      | cons a t =>
        rw [hrep, List.cons_append] at hh
        simp only [List.head?_cons, Option.some.injEq] at hh
        exact printNat_headNotDash n.toNat '-' (by rw [hrep, hh]; rfl) rfl

theorem hexVal_hexDigitChar (d : Nat) (h : d < 16) : hexVal (hexDigitChar d) = some d := by
  rw [hexDigitChar]
  split
  · next hlt =>
    have ht : (Char.ofNat (48 + d)).toNat = 48 + d := toNat_ofNat_valid _ (Or.inl (by omega))
    rw [hexVal, ht, if_pos (by omega)]
    congr 1
    omega
  · next hge =>
    have ht : (Char.ofNat (87 + d)).toNat = 87 + d := toNat_ofNat_valid _ (Or.inl (by omega))
    rw [hexVal, ht, if_neg (by omega), if_pos (by omega)]
    congr 1
    omega

theorem parseJStringBody_escape : ∀ (cs : List Char) (rest : List Char),
    parseJStringBody ((cs.map escapeChar).flatten ++ '"' :: rest) = some (cs, rest) := by
  intro cs
  induction cs with
  | nil =>
    intro rest
    simp only [List.map_nil, List.flatten_nil, List.nil_append]
    conv_lhs => rw [parseJStringBody.eq_def]
    simp
  | cons c cs ih =>
    intro rest
    simp only [List.map_cons, List.flatten_cons, List.append_assoc]
    by_cases h1 : c = '"'
    · subst h1
      show parseJStringBody ('\\' :: '"' :: ((cs.map escapeChar).flatten ++ '"' :: rest))
        = some ('"' :: cs, rest)
      conv_lhs => rw [parseJStringBody.eq_def]
      simp [ih rest]
    · by_cases h2 : c = '\\'
      · subst h2
        show parseJStringBody ('\\' :: '\\' :: ((cs.map escapeChar).flatten ++ '"' :: rest))
          = some ('\\' :: cs, rest)
        conv_lhs => rw [parseJStringBody.eq_def]
        simp [ih rest]
      · by_cases h3 : c = '\n'
        · subst h3
          show parseJStringBody ('\\' :: 'n' :: ((cs.map escapeChar).flatten ++ '"' :: rest))
            = some ('\n' :: cs, rest)
          conv_lhs => rw [parseJStringBody.eq_def]
          simp [ih rest]
        · by_cases h4 : c = '\r'
          · subst h4
            show parseJStringBody ('\\' :: 'r' :: ((cs.map escapeChar).flatten ++ '"' :: rest))
              = some ('\r' :: cs, rest)
            conv_lhs => rw [parseJStringBody.eq_def]
            simp [ih rest]
          · by_cases h5 : c = '\t'
            · subst h5
              show parseJStringBody ('\\' :: 't' :: ((cs.map escapeChar).flatten ++ '"' :: rest))
                = some ('\t' :: cs, rest)
              conv_lhs => rw [parseJStringBody.eq_def]
              simp [ih rest]
            · by_cases h6 : c.toNat = 8
              · have hc : escapeChar c = ['\\', 'b'] := by
                  rw [escapeChar, if_neg h1, if_neg h2, if_neg h3, if_neg h4, if_neg h5,
                    if_pos h6]
                rw [hc]
                show parseJStringBody ('\\' :: 'b' :: ((cs.map escapeChar).flatten ++ '"' :: rest))
                  = some (c :: cs, rest)
                have h8c : Char.ofNat 8 = c := by rw [← h6, Char.ofNat_toNat]
                conv_lhs => rw [parseJStringBody.eq_def]
                simp [ih rest, h8c]
                exact h8c
              · by_cases h7 : c.toNat = 12
                · have hc : escapeChar c = ['\\', 'f'] := by
                    rw [escapeChar, if_neg h1, if_neg h2, if_neg h3, if_neg h4, if_neg h5,
                      if_neg h6, if_pos h7]
                  rw [hc]
                  show parseJStringBody
                      ('\\' :: 'f' :: ((cs.map escapeChar).flatten ++ '"' :: rest))
                    = some (c :: cs, rest)
                  have h12c : Char.ofNat 12 = c := by rw [← h7, Char.ofNat_toNat]
                  conv_lhs => rw [parseJStringBody.eq_def]
                  simp [ih rest, h12c]
                  exact h12c
                · by_cases h8 : c.toNat < 32
                  · have hc : escapeChar c = ['\\', 'u', '0', '0',
                        hexDigitChar (c.toNat / 16), hexDigitChar (c.toNat % 16)] := by
                      rw [escapeChar, if_neg h1, if_neg h2, if_neg h3, if_neg h4, if_neg h5,
                        if_neg h6, if_neg h7, if_pos h8]
                    rw [hc]
                    show parseJStringBody ('\\' :: 'u' :: '0' :: '0' ::
                        hexDigitChar (c.toNat / 16) :: hexDigitChar (c.toNat % 16) ::
                        ((cs.map escapeChar).flatten ++ '"' :: rest))
                      = some (c :: cs, rest)
                    conv_lhs => rw [parseJStringBody.eq_def]
                    norm_num
                    rw [hexVal_hexDigitChar _ (by omega), hexVal_hexDigitChar _ (by omega),
                      show hexVal '0' = some 0 from rfl]
                    have harith : ((0 * 16 + 0) * 16 + c.toNat / 16) * 16 + c.toNat % 16
                        = c.toNat := by omega
                    simp only [harith]
                    simp [ih rest, Char.ofNat_toNat]
                  · have hc : escapeChar c = [c] := by
                      rw [escapeChar, if_neg h1, if_neg h2, if_neg h3, if_neg h4, if_neg h5,
                        if_neg h6, if_neg h7, if_neg h8]
                    rw [hc]
                    show parseJStringBody (c :: ((cs.map escapeChar).flatten ++ '"' :: rest))
                      = some (c :: cs, rest)
                    conv_lhs => rw [parseJStringBody.eq_def]
                    norm_num [h1, h2, h8, ih rest]

mutual
def sizeJ : Json → Nat
  | .jnull => 1
  | .jbool _ => 1
  | .jnum _ => 1
  | .jstr _ => 1
  | .jarr xs => 1 + sizeL xs
  | .jobj fs => 1 + sizeF fs
def sizeL : JsonList → Nat
  | .jlnil => 1
  | .jlcons x xs => 1 + sizeJ x + sizeL xs
def sizeF : JsonFields → Nat
  | .jfnil => 1
  | .jfcons _ v fs => 1 + sizeJ v + sizeF fs
end

theorem sizeJ_pos (v : Json) : 1 ≤ sizeJ v := by
  cases v <;> simp [sizeJ] <;> omega

theorem sizeL_pos (xs : JsonList) : 1 ≤ sizeL xs := by
  cases xs <;> simp [sizeL] <;> omega

theorem sizeF_pos (fs : JsonFields) : 1 ≤ sizeF fs := by
  cases fs <;> simp [sizeF] <;> omega

theorem string_mk_data (s : String) : (⟨s.data⟩ : String) = s := rfl

theorem digit_head_props (c : Char) (h : c = '-' ∨ isDigitChar c = true) :
    isJsonWs c = false ∧ ¬c = 'n' ∧ ¬c = 't' ∧ ¬c = 'f' ∧ ¬c = '"' ∧ ¬c = '[' ∧ ¬c = '{' := by
  rcases h with h | h
  · subst h
    refine ⟨by decide, by decide, by decide, by decide, by decide, by decide, by decide⟩
  · simp only [isDigitChar, decide_eq_true_eq] at h
    refine ⟨?_, ?_, ?_, ?_, ?_, ?_, ?_⟩
    · simp only [isJsonWs, Bool.or_eq_false_iff, decide_eq_false_iff_not]
      omega
    all_goals
      intro he
      rw [he] at h
      exact absurd h (by decide)

theorem printInt_head (n : Int) :
    ∃ c t, printInt n = c :: t ∧ (c = '-' ∨ isDigitChar c = true) := by
  rw [printInt]
  split
  · exact ⟨'-', _, rfl, Or.inl rfl⟩
  · cases hrep : printNat n.toNat with
    | nil => exact absurd hrep (printNat_ne_nil _)
    | cons c t =>
      refine ⟨c, t, rfl, Or.inr ?_⟩
      exact printNat_digits n.toNat c (by rw [hrep]; exact List.mem_cons_self c t)

/-- The first character of a printed JSON value: never whitespace, never a
closing bracket or brace. -/
theorem printJson_head (ind : Nat) (v : Json) :
    ∃ c t, printJson ind v = c :: t ∧ isJsonWs c = false ∧ ¬c = ']' ∧ ¬c = '}' := by
  cases v with
  | jnull => exact ⟨'n', _, rfl, by decide, by decide, by decide⟩
  | jbool b =>
    rcases b with _ | _
    · refine ⟨'f', _, rfl, by decide, by decide, by decide⟩
    · refine ⟨'t', _, rfl, by decide, by decide, by decide⟩
  | jnum n =>
    obtain ⟨c, t, hpr, hd⟩ := printInt_head n
    refine ⟨c, t, hpr, ?_, ?_, ?_⟩
    · exact (digit_head_props c hd).1
    · rcases hd with h | h
      · subst h; decide
      · intro he
        rw [he] at h
        exact absurd h (by decide)
    · rcases hd with h | h
      · subst h; decide
      · intro he
        rw [he] at h
        exact absurd h (by decide)
  | jstr s => exact ⟨'"', _, rfl, by decide, by decide, by decide⟩
  | jarr xs => cases xs with
    | jlnil => exact ⟨'[', _, rfl, by decide, by decide, by decide⟩
    | jlcons x xs' => exact ⟨'[', _, rfl, by decide, by decide, by decide⟩
  | jobj fs => cases fs with
    | jfnil => exact ⟨'{', _, rfl, by decide, by decide, by decide⟩
    | jfcons k v fs' => exact ⟨'{', _, rfl, by decide, by decide, by decide⟩

theorem skipWs_printJson (ind : Nat) (v : Json) (rest : List Char) :
    skipWs (printJson ind v ++ rest) = printJson ind v ++ rest := by
  obtain ⟨c, t, hpr, hws, _, _⟩ := printJson_head ind v
  rw [hpr, List.cons_append, skipWs_cons_of_not _ hws]

theorem headNotDigit_of_skipWs_head {t r0 : List Char} {c : Char}
    (h : skipWs t = c :: r0) (hc : isDigitChar c = false) : headNotDigit t := by
  intro d hd
  cases t with
  | nil => simp at hd
  | cons e r =>
    simp only [List.head?_cons, Option.some.injEq] at hd
    subst hd
    by_cases hws : isJsonWs e = true
    · simp only [isJsonWs, Bool.or_eq_true, decide_eq_true_eq] at hws
      simp only [isDigitChar, decide_eq_false_iff_not]
      omega
    · rw [skipWs_cons_of_not _ (Bool.eq_false_iff.mpr hws)] at h
      have he : e = c := by
        have := congrArg List.head? h
        simpa using this
      rw [he]
      exact hc

theorem parseJson_succ (f : Nat) (l0 : List Char) :
    parseJson (f+1) l0 =
      match skipWs l0 with
      | [] => none
      | c :: rest =>
        if c = 'n' then
          if rest.take 3 = ['u', 'l', 'l'] then some (.jnull, rest.drop 3) else none
        else if c = 't' then
          if rest.take 3 = ['r', 'u', 'e'] then some (.jbool true, rest.drop 3) else none
        else if c = 'f' then
          if rest.take 4 = ['a', 'l', 's', 'e'] then some (.jbool false, rest.drop 4) else none
        else if c = '"' then
          match parseJStringBody rest with
          | some (s, r) => some (.jstr ⟨s⟩, r)
          | none => none
        else if c = '[' then
          if (skipWs rest).head? = some ']' then some (.jarr .jlnil, (skipWs rest).tail)
          else
            match parseJson f rest with
            | some (v, r2) =>
              match parseJsonItems f r2 with
              | some (vs, r3) => some (.jarr (.jlcons v vs), r3)
              | none => none
            | none => none
        else if c = '{' then
          if (skipWs rest).head? = some '}' then some (.jobj .jfnil, (skipWs rest).tail)
          else
            match parseJsonField f rest with
            | some (k, v, r2) =>
              match parseJsonFieldsRest f r2 with
              | some (fs, r3) => some (.jobj (.jfcons k v fs), r3)
              | none => none
            | none => none
        else if c = '-' ∨ isDigitChar c = true then
          match parseNumber (c :: rest) with
          | some (n, r) => some (.jnum n, r)
          | none => none
        else none := rfl

theorem parseJsonItems_succ (f : Nat) (l0 : List Char) :
    parseJsonItems (f+1) l0 =
      match skipWs l0 with
      | [] => none
      | c :: rest =>
        if c = ']' then some (.jlnil, rest)
        else if c = ',' then
          match parseJson f rest with
          | some (v, r2) =>
            match parseJsonItems f r2 with
            | some (vs, r3) => some (.jlcons v vs, r3)
            | none => none
          | none => none
        else none := rfl

theorem parseJsonField_succ (f : Nat) (l0 : List Char) :
    parseJsonField (f+1) l0 =
      match skipWs l0 with
      | [] => none
      | c :: rest =>
        if c = '"' then
          match parseJStringBody rest with
          | some (k, r2) =>
            if (skipWs r2).head? = some ':' then
              match parseJson f (skipWs r2).tail with
              | some (v, r3) => some (⟨k⟩, v, r3)
              | none => none
            else none
          | none => none
        else none := rfl

theorem parseJsonFieldsRest_succ (f : Nat) (l0 : List Char) :
    parseJsonFieldsRest (f+1) l0 =
      match skipWs l0 with
      | [] => none
      | c :: rest =>
        if c = '}' then some (.jfnil, rest)
        else if c = ',' then
          match parseJsonField f rest with
          | some (k, v, r2) =>
            match parseJsonFieldsRest f r2 with
            | some (fs, r3) => some (.jfcons k v fs, r3)
            | none => none
          | none => none
        else none := rfl

theorem parseJson_skipWs_eq (fuel : Nat) (l : List Char) :
    parseJson fuel (skipWs l) = parseJson fuel l := by
  cases fuel with
  | zero => rfl
  | succ f => rw [parseJson_succ, parseJson_succ, skipWs_idem]

theorem parseJsonField_skipWs_eq (fuel : Nat) (l : List Char) :
    parseJsonField fuel (skipWs l) = parseJsonField fuel l := by
  cases fuel with
  | zero => rfl
  | succ f => rw [parseJsonField_succ, parseJsonField_succ, skipWs_idem]

theorem headNotDigit_items (ind : Nat) (xs : JsonList) {tail rest : List Char}
    (htail : skipWs tail = ']' :: rest) :
    headNotDigit (printJsonItems ind xs ++ tail) := by
  cases xs with
  | jlnil =>
    simp only [printJsonItems, List.nil_append]
    exact headNotDigit_of_skipWs_head htail (by decide)
  | jlcons y ys =>
    simp only [printJsonItems, List.cons_append]
    intro c hc
    simp only [List.head?_cons, Option.some.injEq] at hc
    rw [← hc]
    decide

theorem headNotDigit_fields (ind : Nat) (fs : JsonFields) {tail rest : List Char}
    (htail : skipWs tail = '}' :: rest) :
    headNotDigit (printJsonFields ind fs ++ tail) := by
  cases fs with
  | jfnil =>
    simp only [printJsonFields, List.nil_append]
    exact headNotDigit_of_skipWs_head htail (by decide)
  | jfcons k v fs' =>
    simp only [printJsonFields, List.cons_append]
    intro c hc
    simp only [List.head?_cons, Option.some.injEq] at hc
    rw [← hc]
    decide

theorem skipWs_printJString (k : String) (z : List Char) :
    skipWs (printJString k ++ z) = printJString k ++ z := by
  rw [printJString, List.cons_append]
  exact skipWs_cons_of_not _ (by decide)

theorem skipWs_close (ind : Nat) (c : Char) (rest : List Char) (h : isJsonWs c = false) :
    skipWs ('\n' :: (spacesList ind ++ (c :: rest))) = c :: rest := by
  rw [skipWs_newline, skipWs_spaces, skipWs_cons_of_not _ h]

/-- The central round-trip statement, proved by induction on the parser
fuel: parsing a printed value (or printed item/field list, or printed
field) consumes exactly the printed text and reconstructs the value. -/
theorem json_roundtrip_all : ∀ fuel : Nat,
    (∀ (v : Json) (ind : Nat) (rest : List Char), sizeJ v ≤ fuel → headNotDigit rest →
      parseJson fuel (printJson ind v ++ rest) = some (v, rest)) ∧
    (∀ (xs : JsonList) (ind : Nat) (tail rest : List Char), sizeL xs ≤ fuel →
      skipWs tail = ']' :: rest →
      parseJsonItems fuel (printJsonItems ind xs ++ tail) = some (xs, rest)) ∧
    (∀ (fs : JsonFields) (ind : Nat) (tail rest : List Char), sizeF fs ≤ fuel →
      skipWs tail = '}' :: rest →
      parseJsonFieldsRest fuel (printJsonFields ind fs ++ tail) = some (fs, rest)) ∧
    (∀ (k : String) (v : Json) (ind : Nat) (rest : List Char), sizeJ v < fuel →
      headNotDigit rest →
      parseJsonField fuel (printJString k ++ ':' :: ' ' :: (printJson ind v ++ rest))
        = some (k, v, rest)) := by
  intro fuel
  induction fuel with
  | zero =>
    refine ⟨?_, ?_, ?_, ?_⟩
    · intro v _ _ hs _
      exact absurd hs (by have := sizeJ_pos v; omega)
    · intro xs _ _ _ hs _
      exact absurd hs (by have := sizeL_pos xs; omega)
    · intro fs _ _ _ hs _
      exact absurd hs (by have := sizeF_pos fs; omega)
    · intro _ v _ _ hs _
      omega
  | succ f ih =>
    obtain ⟨ihV, ihI, ihF, ihKV⟩ := ih
    refine ⟨?_, ?_, ?_, ?_⟩
    · -- values
      intro v ind rest hs hrest
      cases v with
      | jnull =>
        simp only [printJson, List.cons_append, List.nil_append]
        rw [parseJson_succ]
        rw [show skipWs ('n' :: 'u' :: 'l' :: 'l' :: rest) = 'n' :: 'u' :: 'l' :: 'l' :: rest
          from skipWs_cons_of_not _ (by decide)]
        norm_num [List.take, List.drop]
      | jbool b =>
        cases b with
        | true =>
          simp only [printJson, List.cons_append, List.nil_append]
          rw [parseJson_succ]
          rw [show skipWs ('t' :: 'r' :: 'u' :: 'e' :: rest) = 't' :: 'r' :: 'u' :: 'e' :: rest
            from skipWs_cons_of_not _ (by decide)]
          norm_num [List.take, List.drop]
          all_goals exact fun h => absurd h (by decide)
        | false =>
          simp only [printJson, List.cons_append, List.nil_append]
          rw [parseJson_succ]
          rw [show skipWs ('f' :: 'a' :: 'l' :: 's' :: 'e' :: rest)
              = 'f' :: 'a' :: 'l' :: 's' :: 'e' :: rest
            from skipWs_cons_of_not _ (by decide)]
          norm_num [List.take, List.drop]
          rw [if_neg (by decide : ¬('f' : Char) = 'n'), if_neg (by decide : ¬('f' : Char) = 't')]
      | jnum n =>
        obtain ⟨c, t, hpr, hd⟩ := printInt_head n
        obtain ⟨hws, hn, ht, hf2, hq, hbr, hbrc⟩ := digit_head_props c hd
        simp only [printJson]
        rw [hpr, List.cons_append, parseJson_succ]
        rw [show skipWs (c :: (t ++ rest)) = c :: (t ++ rest) from skipWs_cons_of_not _ hws]
        simp only [if_neg hn, if_neg ht, if_neg hf2, if_neg hq, if_neg hbr, if_neg hbrc,
          if_pos hd]
        rw [show c :: (t ++ rest) = printInt n ++ rest from by rw [hpr]; rfl]
        rw [parseNumber_printInt n rest hrest]
      | jstr s =>
        simp only [printJson, printJString, List.cons_append, List.append_assoc,
          List.nil_append]
        rw [parseJson_succ]
        rw [show skipWs ('"' :: ((s.data.map escapeChar).flatten ++ '"' :: rest))
            = '"' :: ((s.data.map escapeChar).flatten ++ '"' :: rest)
          from skipWs_cons_of_not _ (by decide)]
        simp only [if_neg (by decide : ¬('"' : Char) = 'n'),
          if_neg (by decide : ¬('"' : Char) = 't'), if_neg (by decide : ¬('"' : Char) = 'f'),
          if_pos (rfl : ('"' : Char) = '"')]
        rw [parseJStringBody_escape s.data rest]
        simp
      | jarr xs =>
        cases xs with
        | jlnil =>
          simp only [printJson, List.cons_append, List.nil_append]
          rw [parseJson_succ]
          rw [show skipWs ('[' :: ']' :: rest) = '[' :: ']' :: rest
            from skipWs_cons_of_not _ (by decide)]
          simp only [if_neg (by decide : ¬('[' : Char) = 'n'),
            if_neg (by decide : ¬('[' : Char) = 't'), if_neg (by decide : ¬('[' : Char) = 'f'),
            if_neg (by decide : ¬('[' : Char) = '"'), if_pos (rfl : ('[' : Char) = '[')]
          rw [show skipWs (']' :: rest) = ']' :: rest from skipWs_cons_of_not _ (by decide)]
          simp
        | jlcons x xs' =>
          simp only [printJson, List.cons_append, List.append_assoc, List.nil_append]
          rw [parseJson_succ]
          rw [show skipWs ('[' :: '\n' :: (spacesList (ind+2) ++ (printJson (ind+2) x
                ++ (printJsonItems (ind+2) xs' ++ '\n' :: (spacesList ind ++ ']' :: rest)))))
              = '[' :: '\n' :: (spacesList (ind+2) ++ (printJson (ind+2) x
                ++ (printJsonItems (ind+2) xs' ++ '\n' :: (spacesList ind ++ ']' :: rest))))
            from skipWs_cons_of_not _ (by decide)]
          simp only [if_neg (by decide : ¬('[' : Char) = 'n'),
            if_neg (by decide : ¬('[' : Char) = 't'), if_neg (by decide : ¬('[' : Char) = 'f'),
            if_neg (by decide : ¬('[' : Char) = '"'), if_pos (rfl : ('[' : Char) = '[')]
          have hskip1 : skipWs ('\n' :: (spacesList (ind+2) ++ (printJson (ind+2) x
                ++ (printJsonItems (ind+2) xs' ++ '\n' :: (spacesList ind ++ ']' :: rest)))))
              = printJson (ind+2) x
                ++ (printJsonItems (ind+2) xs' ++ '\n' :: (spacesList ind ++ ']' :: rest)) := by
            rw [skipWs_newline, skipWs_spaces, skipWs_printJson]
          rw [hskip1]
          obtain ⟨cx, tx, hpx, hwsx, hne1x, hne2x⟩ := printJson_head (ind+2) x
          rw [show (printJson (ind+2) x
                ++ (printJsonItems (ind+2) xs' ++ '\n' :: (spacesList ind ++ ']' :: rest))).head?
              = some cx from by rw [hpx]; rfl]
          rw [if_neg (fun hcon => hne1x (Option.some.inj hcon))]
          rw [← parseJson_skipWs_eq f ('\n' :: (spacesList (ind+2) ++ (printJson (ind+2) x
            ++ (printJsonItems (ind+2) xs' ++ '\n' :: (spacesList ind ++ ']' :: rest))))), hskip1]
          have htail' : skipWs ('\n' :: (spacesList ind ++ ']' :: rest)) = ']' :: rest :=
            skipWs_close ind ']' rest (by decide)
          simp only [sizeJ, sizeL] at hs
          rw [ihV x (ind+2) _ (by omega) (headNotDigit_items (ind+2) xs' htail')]
          have hI := ihI xs' (ind+2) ('\n' :: (spacesList ind ++ ']' :: rest)) rest
            (by omega) htail'
          simp [hI]
      | jobj fs =>
        cases fs with
        | jfnil =>
          simp only [printJson, List.cons_append, List.nil_append]
          rw [parseJson_succ]
          rw [show skipWs ('{' :: '}' :: rest) = '{' :: '}' :: rest
            from skipWs_cons_of_not _ (by decide)]
          simp only [if_neg (by decide : ¬('{' : Char) = 'n'),
            if_neg (by decide : ¬('{' : Char) = 't'), if_neg (by decide : ¬('{' : Char) = 'f'),
            if_neg (by decide : ¬('{' : Char) = '"'), if_neg (by decide : ¬('{' : Char) = '['),
            if_pos (rfl : ('{' : Char) = '{')]
          rw [show skipWs ('}' :: rest) = '}' :: rest from skipWs_cons_of_not _ (by decide)]
          simp
        | jfcons k v fs' =>
          simp only [printJson, List.cons_append, List.append_assoc, List.nil_append]
          rw [parseJson_succ]
          rw [show skipWs ('{' :: '\n' :: (spacesList (ind+2) ++ (printJString k
                ++ ':' :: ' ' :: (printJson (ind+2) v
                ++ (printJsonFields (ind+2) fs' ++ '\n' :: (spacesList ind ++ '}' :: rest))))))
              = '{' :: '\n' :: (spacesList (ind+2) ++ (printJString k
                ++ ':' :: ' ' :: (printJson (ind+2) v
                ++ (printJsonFields (ind+2) fs' ++ '\n' :: (spacesList ind ++ '}' :: rest)))))
            from skipWs_cons_of_not _ (by decide)]
          simp only [if_neg (by decide : ¬('{' : Char) = 'n'),
            if_neg (by decide : ¬('{' : Char) = 't'), if_neg (by decide : ¬('{' : Char) = 'f'),
            if_neg (by decide : ¬('{' : Char) = '"'), if_neg (by decide : ¬('{' : Char) = '['),
            if_pos (rfl : ('{' : Char) = '{')]
          have hskip1 : skipWs ('\n' :: (spacesList (ind+2) ++ (printJString k
                ++ ':' :: ' ' :: (printJson (ind+2) v
                ++ (printJsonFields (ind+2) fs' ++ '\n' :: (spacesList ind ++ '}' :: rest))))))
              = printJString k ++ ':' :: ' ' :: (printJson (ind+2) v
                ++ (printJsonFields (ind+2) fs' ++ '\n' :: (spacesList ind ++ '}' :: rest))) := by
            rw [skipWs_newline, skipWs_spaces, skipWs_printJString]
          rw [hskip1]
          rw [show (printJString k ++ ':' :: ' ' :: (printJson (ind+2) v
                ++ (printJsonFields (ind+2) fs' ++ '\n' :: (spacesList ind ++ '}' :: rest)))).head?
              = some '"' from by rw [printJString]; rfl]
          rw [if_neg (by decide : ¬some ('"' : Char) = some '}')]
          rw [← parseJsonField_skipWs_eq f ('\n' :: (spacesList (ind+2) ++ (printJString k
            ++ ':' :: ' ' :: (printJson (ind+2) v
            ++ (printJsonFields (ind+2) fs' ++ '\n' :: (spacesList ind ++ '}' :: rest)))))),
            hskip1]
          have htail' : skipWs ('\n' :: (spacesList ind ++ '}' :: rest)) = '}' :: rest :=
            skipWs_close ind '}' rest (by decide)
          simp only [sizeJ, sizeF] at hs
          have hvp := sizeJ_pos v
          have hfp := sizeF_pos fs'
          rw [ihKV k v (ind+2) _ (by omega) (headNotDigit_fields (ind+2) fs' htail')]
          have hF := ihF fs' (ind+2) ('\n' :: (spacesList ind ++ '}' :: rest)) rest
            (by omega) htail'
          simp [hF]
    · -- item lists
      intro xs ind tail rest hs htail
      cases xs with
      | jlnil =>
        simp only [printJsonItems, List.nil_append]
        rw [parseJsonItems_succ, htail]
        simp
      | jlcons y ys =>
        simp only [printJsonItems, List.cons_append, List.append_assoc]
        rw [parseJsonItems_succ]
        rw [show skipWs (',' :: '\n' :: (spacesList ind ++ (printJson ind y
              ++ (printJsonItems ind ys ++ tail))))
            = ',' :: '\n' :: (spacesList ind ++ (printJson ind y
              ++ (printJsonItems ind ys ++ tail)))
          from skipWs_cons_of_not _ (by decide)]
        simp only [if_neg (by decide : ¬(',' : Char) = ']'), if_pos (rfl : (',' : Char) = ',')]
        have hskip1 : skipWs ('\n' :: (spacesList ind ++ (printJson ind y
              ++ (printJsonItems ind ys ++ tail))))
            = printJson ind y ++ (printJsonItems ind ys ++ tail) := by
          rw [skipWs_newline, skipWs_spaces, skipWs_printJson]
        rw [← parseJson_skipWs_eq f ('\n' :: (spacesList ind ++ (printJson ind y
          ++ (printJsonItems ind ys ++ tail)))), hskip1]
        simp only [sizeL] at hs
        rw [ihV y ind _ (by omega) (headNotDigit_items ind ys htail)]
        have hI := ihI ys ind tail rest (by omega) htail
        simp [hI]
    · -- field lists
      intro fs ind tail rest hs htail
      cases fs with
      | jfnil =>
        simp only [printJsonFields, List.nil_append]
        rw [parseJsonFieldsRest_succ, htail]
        simp
      | jfcons k v fs' =>
        simp only [printJsonFields, List.cons_append, List.append_assoc]
        rw [parseJsonFieldsRest_succ]
        rw [show skipWs (',' :: '\n' :: (spacesList ind ++ (printJString k
              ++ ':' :: ' ' :: (printJson ind v ++ (printJsonFields ind fs' ++ tail)))))
            = ',' :: '\n' :: (spacesList ind ++ (printJString k
              ++ ':' :: ' ' :: (printJson ind v ++ (printJsonFields ind fs' ++ tail))))
          from skipWs_cons_of_not _ (by decide)]
        simp only [if_neg (by decide : ¬(',' : Char) = '}'), if_pos (rfl : (',' : Char) = ',')]
        have hskip1 : skipWs ('\n' :: (spacesList ind ++ (printJString k
              ++ ':' :: ' ' :: (printJson ind v ++ (printJsonFields ind fs' ++ tail)))))
            = printJString k ++ ':' :: ' ' :: (printJson ind v
              ++ (printJsonFields ind fs' ++ tail)) := by
          rw [skipWs_newline, skipWs_spaces, skipWs_printJString]
        rw [← parseJsonField_skipWs_eq f ('\n' :: (spacesList ind ++ (printJString k
          ++ ':' :: ' ' :: (printJson ind v ++ (printJsonFields ind fs' ++ tail))))), hskip1]
        simp only [sizeF] at hs
        have hvp := sizeJ_pos v
        have hfp := sizeF_pos fs'
        rw [ihKV k v ind _ (by omega) (headNotDigit_fields ind fs' htail)]
        have hF := ihF fs' ind tail rest (by omega) htail
        simp [hF]
    · -- a single field
      intro k v ind rest hs hrest
      rw [parseJsonField_succ]
      rw [skipWs_printJString]
      rw [printJString]
      simp only [List.cons_append, List.append_assoc, List.nil_append,
        if_pos (rfl : ('"' : Char) = '"'),
        parseJStringBody_escape k.data (':' :: ' ' :: (printJson ind v ++ rest)), if_true]
      rw [show skipWs (':' :: ' ' :: (printJson ind v ++ rest))
          = ':' :: ' ' :: (printJson ind v ++ rest) from skipWs_cons_of_not _ (by decide)]
      simp only [List.head?_cons, List.tail_cons, if_pos rfl]
      rw [← parseJson_skipWs_eq f (' ' :: (printJson ind v ++ rest))]
      rw [show skipWs (' ' :: (printJson ind v ++ rest)) = skipWs (printJson ind v ++ rest)
        from skipWs_cons_of_ws _ (by decide), skipWs_printJson]
      rw [ihV v ind rest (by omega) hrest]
      simp

mutual
theorem sizeJ_le_printLen (ind : Nat) (v : Json) : sizeJ v ≤ (printJson ind v).length := by
  cases v with
  | jnull => simp [sizeJ, printJson]
  | jbool b => cases b <;> simp [sizeJ, printJson]
  | jnum n =>
    obtain ⟨c, t, hpr, _⟩ := printInt_head n
    simp [sizeJ, printJson, hpr]
  | jstr s => simp [sizeJ, printJString, printJson]
  | jarr xs =>
    cases xs with
    | jlnil => simp [sizeJ, sizeL, printJson]
    | jlcons x xs' =>
      have h1 := sizeJ_le_printLen (ind+2) x
      have h2 := sizeL_le_printLen (ind+2) xs'
      simp only [sizeJ, sizeL, printJson, List.length_cons, List.length_append]
      omega
  | jobj fs =>
    cases fs with
    | jfnil => simp [sizeJ, sizeF, printJson]
    | jfcons k v fs' =>
      have h1 := sizeJ_le_printLen (ind+2) v
      have h2 := sizeF_le_printLen (ind+2) fs'
      simp only [sizeJ, sizeF, printJson, List.length_cons, List.length_append]
      omega
theorem sizeL_le_printLen (ind : Nat) (xs : JsonList) :
    sizeL xs ≤ (printJsonItems ind xs).length + 2 := by
  cases xs with
  | jlnil => simp [sizeL, printJsonItems]
  | jlcons y ys =>
    have h1 := sizeJ_le_printLen ind y
    have h2 := sizeL_le_printLen ind ys
    simp only [sizeL, printJsonItems, List.length_cons, List.length_append]
    omega
theorem sizeF_le_printLen (ind : Nat) (fs : JsonFields) :
    sizeF fs ≤ (printJsonFields ind fs).length + 2 := by
  cases fs with
  | jfnil => simp [sizeF, printJsonFields]
  | jfcons k v fs' =>
    have h1 := sizeJ_le_printLen ind v
    have h2 := sizeF_le_printLen ind fs'
    simp only [sizeF, printJsonFields, List.length_cons, List.length_append]
    omega
end

/-- Parsing the 2-space pretty-printed form of a value gives back exactly
that value: `JSON.parse (JSON.stringify v null 2) = v`. -/
theorem jsonParse_stringify (v : Json) : jsonParse (jsonStringify2 v) = some v := by
  rw [jsonStringify2, jsonParse]
  have hfuel : sizeJ v ≤ (printJson 0 v).length + 1 := by
    have := sizeJ_le_printLen 0 v
    omega
  have hrt := (json_roundtrip_all ((printJson 0 v).length + 1)).1 v 0 [] hfuel
    (fun c hc => by simp at hc)
  rw [List.append_nil] at hrt
  show (match parseJson ((printJson 0 v).length + 1) (printJson 0 v) with
    | some (w, rest) => if (skipWs rest).isEmpty then some w else none
    | none => none) = some v
  rw [hrt]
  rfl

/-- C4: for every response body whose resolved language is `json` and which
parses successfully, the displayed body is the 2-space-indented
re-serialization, and parsing that re-serialization yields a value equal to
the original parse; a body that fails to parse is kept unchanged (the
formatter is a total function: no exception propagates). -/
theorem json_body_format_roundtrip :
    (∀ (language body : String) (v : Json), language = "json" → jsonParse body = some v →
      formatResponseBody language body = jsonStringify2 v ∧
      jsonParse (formatResponseBody language body) = some v) ∧
    (∀ (language body : String), language = "json" → jsonParse body = none →
      formatResponseBody language body = body) := by
  constructor
  · intro language body v hl hp
    subst hl
    constructor
    · rw [formatResponseBody, if_pos rfl, hp]
    · rw [formatResponseBody, if_pos rfl, hp, jsonParse_stringify]
  · intro language body hl hp
    subst hl
    rw [formatResponseBody, if_pos rfl, hp]

/-- Witness for C4 at the body `{"a":1}` (which pretty-prints to an
indented object) and at the unparsable body `"not json"`. -/
theorem json_body_format_roundtrip_witness :
    (formatResponseBody "json" "\x7b\x22a\x22:1\x7d"
        = jsonStringify2 (Json.jobj (JsonFields.jfcons "a" (Json.jnum 1) JsonFields.jfnil)) ∧
      jsonParse (formatResponseBody "json" "\x7b\x22a\x22:1\x7d")
        = some (Json.jobj (JsonFields.jfcons "a" (Json.jnum 1) JsonFields.jfnil))) ∧
    formatResponseBody "json" "not json" = "not json" :=
  ⟨json_body_format_roundtrip.1 "json" "\x7b\x22a\x22:1\x7d"
      (Json.jobj (JsonFields.jfcons "a" (Json.jnum 1) JsonFields.jfnil)) rfl (by decide),
   json_body_format_roundtrip.2 "json" "not json" rfl (by decide)⟩

/-! ### JavaScript string helpers shared by the HTML generators -/

/-- Truthiness of a possibly-absent JS string: `undefined` and the empty
string are falsy, every other string is truthy. -/
def optTruthy (o : Option String) : Bool :=
  match o with
  | some s => !s.isEmpty
  | none => false

/-- The JS idiom `s || d` for a possibly-absent string `s`: the left
operand if truthy, otherwise the default. -/
def jsOrStr (o : Option String) (d : String) : String :=
  if optTruthy o then o.getD "" else d

/-- JS template interpolation of a possibly-absent value: `undefined`
prints as the string `undefined`. -/
def optRender (o : Option String) : String :=
  match o with
  | some s => s
  | none => "undefined"

/-- `String.prototype.toLowerCase` restricted to ASCII, applied to a whole
string (the model used throughout, consistent with `jsToLower`). -/
def jsLowerStr (s : String) : String := ⟨s.data.map jsToLower⟩

/-- `Array.prototype.join(sep)` on a list of strings. -/
def joinSep (sep : String) : List String → String
  | [] => ""
  | x :: xs => xs.foldl (fun acc y => acc ++ sep ++ y) x

/-- Replace every occurrence of the character `c` by the string `rep`
(models a global single-character regex replace). -/
def replaceAllChar (c : Char) (rep : List Char) (l : List Char) : List Char :=
  l.flatMap (fun d => if d = c then rep else [d])

/-- Replace every occurrence of the two-character sequence backslash-n by
`<br>` (models the final global replace in `escapeHtml`). -/
def replaceBackslashN : List Char → List Char
  | [] => []
  | [c] => [c]
  | c :: d :: rest =>
    if c = '\\' ∧ d = 'n' then '<' :: 'b' :: 'r' :: '>' :: replaceBackslashN rest
    else c :: replaceBackslashN (d :: rest)

/-- `escapeHtml` from src/index.js lines 872-881: the chained global
replaces for ampersand, angle brackets, double quote, apostrophe, newline
and literal backslash-n, applied in source order. -/
def escapeHtml (s : String) : String :=
  ⟨replaceBackslashN
    (replaceAllChar '\n' "<br>".data
      (replaceAllChar (Char.ofNat 39) "&#039;".data
        (replaceAllChar (Char.ofNat 34) "&quot;".data
          (replaceAllChar '>' "&gt;".data
            (replaceAllChar '<' "&lt;".data
              (replaceAllChar '&' "&amp;".data s.data))))))⟩

/-- `String.prototype.split` at newline characters. -/
def splitNl : List Char → List (List Char)
  | [] => [[]]
  | c :: cs =>
    if c = '\n' then [] :: splitNl cs
    else
      match splitNl cs with
      | [] => [[c]]
      | p :: ps => (c :: p) :: ps

/-- `formattedBody.split("\n").length` from src/index.js line 805. -/
def lineCount (s : String) : Nat := (splitNl s.data).length

/-- Boolean list-prefix test. -/
def isPrefixOfL : List Char → List Char → Bool
  | [], _ => true
  | _ :: _, [] => false
  | c :: cs, d :: ds => c = d && isPrefixOfL cs ds

/-- Boolean contiguous-segment (substring) test. -/
def containsSeg : List Char → List Char → Bool
  | seg, [] => seg.isEmpty
  | seg, c :: cs => isPrefixOfL seg (c :: cs) || containsSeg seg cs

/-- `String.prototype.includes`. -/
def strIncludes (needle hay : String) : Bool := containsSeg needle.data hay.data

/-- Boolean list-suffix test. -/
def isSuffixL (s l : List Char) : Bool := isPrefixOfL s.reverse l.reverse

/-- The showdown markdown converter (`converter.makeHtml`) is an external
dependency whose output is irrelevant to every claim verified below; it is
modelled as the identity on strings. -/
def converterMakeHtml (s : String) : String := s

/-! ### Data model of a Postman collection as consumed by src/index.js -/

/-- One entry of `request.url.query`. -/
structure QueryParam where
  key : Option String
  value : Option String
  description : Option String
deriving DecidableEq

/-- One entry of `request.header` or `response.header`. -/
structure Header where
  key : Option String
  value : Option String
deriving DecidableEq

/-- The `body.options.raw` object. -/
structure RawOptions where
  language : Option String
deriving DecidableEq

/-- The `body.options` object. -/
structure BodyOptions where
  raw : Option RawOptions
deriving DecidableEq

/-- One entry of `body.formdata`. -/
structure FormParam where
  key : Option String
  value : Option String
  type : Option String
deriving DecidableEq

/-- The `request.body` object. -/
structure ReqBody where
  mode : Option String
  raw : Option String
  options : Option BodyOptions
  formdata : Option (List FormParam)
deriving DecidableEq

/-- The `request.url` object form. -/
structure UrlObj where
  raw : Option String
  path : Option (List String)
  query : Option (List QueryParam)
deriving DecidableEq

/-- `request.url` is either a plain string, an object, or absent. -/
inductive UrlVal where
  | ustr (s : String)
  | uobj (o : UrlObj)
  | unone
deriving DecidableEq

/-- The `request` object of an endpoint. -/
structure Request where
  method : Option String
  url : UrlVal
  header : Option (List Header)
  description : Option String
  body : Option ReqBody
deriving DecidableEq

/-- One entry of `endpoint.response` (`previewlanguage` models the
`_postman_previewlanguage` property). -/
structure Response where
  header : Option (List Header)
  body : Option String
  previewlanguage : Option String
deriving DecidableEq

mutual
/-- A node of the collection tree: `item` is the child list (present on
folders), `request`/`response` are the endpoint payload. -/
inductive Item where
  | mk (name : String) (description : Option String) (item : ItemsOpt)
       (request : Option Request) (response : Option (List Response)) : Item
/-- A possibly-absent child array (`item.item` is either an array or
absent). -/
inductive ItemsOpt where
  | onone : ItemsOpt
  | osome (children : Items) : ItemsOpt
/-- A JS array of child nodes. -/
inductive Items where
  | inil : Items
  | icons (hd : Item) (tl : Items) : Items
end

def Item.name : Item → String
  | .mk n _ _ _ _ => n

def Item.description : Item → Option String
  | .mk _ d _ _ _ => d

def Item.item : Item → ItemsOpt
  | .mk _ _ ch _ _ => ch

def Item.request : Item → Option Request
  | .mk _ _ _ r _ => r

def Item.response : Item → Option (List Response)
  | .mk _ _ _ _ rs => rs

/-- `array.length` for the child list. -/
def itemsLen : Items → Nat
  | .inil => 0
  | .icons _ tl => itemsLen tl + 1

/-- `isFolder` from src/index.js lines 831-833: the node has an `item`
array. -/
def isFolder (i : Item) : Bool :=
  match i.item with
  | .osome _ => true
  | .onone => false

/-- `getFolderId` from src/index.js lines 835-841 (string-argument branch,
the one reached from the TOC and content generators). -/
def getFolderId (folderPath : String) : String := "folder-" ++ slugify folderPath

/-- `getEndpointId` from src/index.js lines 843-853 (array-argument
branch, the one reached from the TOC and content generators). -/
def getEndpointId (parentPath : List String) (endpointName : String) : String :=
  "endpoint-" ++ joinSep "-" (parentPath.map slugify) ++ "-" ++ slugify endpointName

/-! ### The endpoint renderer (src/index.js lines 583-829) -/

/-- The query-parameter filter from src/index.js lines 646-651: keep a
parameter when its key is truthy and its lower-cased key is neither
`token` nor `key`. -/
def filteredQueryParams (queryParams : List QueryParam) : List QueryParam :=
  queryParams.filter (fun param =>
    optTruthy param.key
      && (jsLowerStr (jsOrStr param.key "") != "token")
      && (jsLowerStr (jsOrStr param.key "") != "key"))

/-- One query-parameter table row (src/index.js lines 666-672). -/
def queryParamRow (param : QueryParam) : String :=
  "<tr>\n        <td>" ++ optRender param.key
    ++ "</td>\n        <td>" ++ cleanPostmanVariables (jsOrStr param.value "")
    ++ "</td>\n        <td>" ++ escapeHtml (jsOrStr param.description "")
    ++ "</td>\n      </tr>"

/-- The accumulated query-parameter rows (the `forEach` loop). -/
def queryRows (params : List QueryParam) : String :=
  params.foldl (fun acc param => acc ++ queryParamRow param) ""

/-- The query-parameters section (src/index.js lines 653-677): rendered
only when the filtered list is non-empty. -/
def querySection (queryParams : List QueryParam) : String :=
  if (filteredQueryParams queryParams).length > 0 then
    "<div class=\"params-section\">\n      <h4>Query Parameters</h4>\n      <table>\n        <thead>\n          <tr>\n            <th>Parameter</th>\n            <th>Value</th>\n            <th>Description</th>\n          </tr>\n        </thead>\n        <tbody>"
      ++ queryRows (filteredQueryParams queryParams)
      ++ "</tbody>\n      </table>\n    </div>"
  else ""

/-- One request-header table row (src/index.js lines 692-697). -/
def headerRow (header : Header) : String :=
  "<tr>\n        <td>" ++ optRender header.key
    ++ "</td>\n        <td>" ++ cleanPostmanVariables (jsOrStr header.value "")
    ++ "</td>\n      </tr>"

/-- The headers section (src/index.js lines 680-702). -/
def headersSection (headers : List Header) : String :=
  if headers.length > 0 then
    "<div class=\"params-section\">\n      <h5>Headers</h5>\n      <table>\n        <thead>\n          <tr>\n            <th>Name</th>\n            <th>Value</th>\n          </tr>\n        </thead>\n        <tbody>"
      ++ headers.foldl (fun acc header => acc ++ headerRow header) ""
      ++ "</tbody>\n      </table>\n    </div>"
  else ""

/-- One form-data table row (src/index.js lines 733-739). -/
def formParamRow (param : FormParam) : String :=
  "<tr>\n          <td>" ++ optRender param.key
    ++ "</td>\n          <td>" ++ cleanPostmanVariables (jsOrStr param.value "")
    ++ "</td>\n          <td>" ++ jsOrStr param.type "text"
    ++ "</td>\n        </tr>"

/-- The request-body section (src/index.js lines 704-745): a raw block
with its declared language, or a form-data table. -/
def requestBodySection (b : Option ReqBody) : String :=
  match b with
  | none => ""
  | some body =>
    if body.mode = some "raw" ∧ optTruthy body.raw then
      let language :=
        match body.options with
        | some o =>
          match o.raw with
          | some r => if optTruthy r.language then jsOrStr r.language "" else "text"
          | none => "text"
        | none => "text"
      "<div class=\"params-section\">\n        <h4>Request Body</h4>\n        <pre><code class=\"language-"
        ++ language ++ "\">" ++ cleanPostmanVariables (jsOrStr body.raw "")
        ++ "</code></pre>\n      </div>"
    else if body.mode = some "formdata" ∧ body.formdata.isSome then
      "<div class=\"params-section\">\n        <h4>Form Data</h4>\n        <table>\n          <thead>\n            <tr>\n              <th>Key</th>\n              <th>Value</th>\n              <th>Type</th>\n            </tr>\n          </thead>\n          <tbody>"
        ++ (body.formdata.getD []).foldl (fun acc param => acc ++ formParamRow param) ""
        ++ "</tbody>\n        </table>\n      </div>"
    else ""

/-- The content type determined from a response's headers (src/index.js
lines 753-762): the lower-cased value of the first header whose key
lower-cases to `content-type`, defaulting to `text/plain`. -/
def responseContentType (r : Response) : String :=
  match r.header with
  | some hs =>
    match hs.find? (fun h => optTruthy h.key && (jsLowerStr (jsOrStr h.key "") == "content-type")) with
    | some h => if optTruthy h.value then jsLowerStr (jsOrStr h.value "") else "text/plain"
    | none => "text/plain"
  | none => "text/plain"

/-- The content-type to syntax-highlighting-language mapping of
src/index.js lines 764-774. -/
def langFromContentType (ct : String) : String :=
  if strIncludes "json" ct then "json"
  else if strIncludes "xml" ct then "xml"
  else if strIncludes "html" ct then "html"
  else if strIncludes "javascript" ct then "javascript"
  else "text"

/-- The language used for a response example (src/index.js lines 753-780):
derived from the content type, then overridden by a truthy
`_postman_previewlanguage`. -/
def responseLanguage (r : Response) : String :=
  let base :=
    match r.header with
    | some hs =>
      match hs.find? (fun h => optTruthy h.key && (jsLowerStr (jsOrStr h.key "") == "content-type")) with
      | some h => if optTruthy h.value then langFromContentType (jsLowerStr (jsOrStr h.value "")) else "text"
      | none => "text"
    | none => "text"
  if optTruthy r.previewlanguage then jsOrStr r.previewlanguage "" else base

/-- One response example (the loop body of src/index.js lines 752-820):
content-type note, the formatted body with the `collapsed` display hint
when it exceeds ten lines, and the expand toggle for long bodies. -/
def renderResponse (r : Response) : String :=
  "<div class=\"response-example\">\n        "
    ++ (if responseContentType r != "text/plain" then
          "<p><strong>Content-Type:</strong> " ++ responseContentType r ++ "</p>"
        else "")
    ++ (if optTruthy r.body then
          let language := responseLanguage r
          let formattedBody := formatResponseBody language (jsOrStr r.body "")
          let isLong := 10 < lineCount formattedBody
          "<div class=\"response-body" ++ (if isLong then " collapsed" else "")
            ++ "\">\n          <pre><code class=\"language-" ++ language ++ "\">"
            ++ formattedBody
            ++ "</code></pre>\n        </div>"
            ++ (if isLong then "<button class=\"expand-button\">Afficher tout</button>" else "")
        else "")
    ++ "</div>"

/-- The response-examples section (src/index.js lines 748-823). -/
def responsesSection (response : Option (List Response)) : String :=
  match response with
  | some resps =>
    if resps.length > 0 then
      "<div class=\"params-section\">\n      <h4>Response Examples</h4>"
        ++ resps.foldl (fun acc r => acc ++ renderResponse r) ""
        ++ "</div>"
    else ""
  | none => ""

/-- `generateEndpointContent` from src/index.js lines 583-829. -/
def generateEndpointContent (parentPath : List String) (endpoint : Item) : String :=
  let endpointId := getEndpointId parentPath endpoint.name
  match endpoint.request with
  | none =>
    "<div class=\"endpoint\" id=\"" ++ endpointId
      ++ "\">\n      <h4>" ++ endpoint.name
      ++ "</h4>\n      <p>No request information available.</p>\n    </div>"
  | some request =>
    let method := jsOrStr request.method "GET"
    let methodClass := jsLowerStr method
    let url :=
      match request.url with
      | .ustr s => cleanPostmanVariables s
      | .uobj o => if optTruthy o.raw then cleanPostmanVariables (jsOrStr o.raw "") else ""
      | .unone => ""
    let urlPath :=
      match request.url with
      | .uobj o =>
        match o.path with
        | some ps => "/" ++ joinSep "/" (ps.map cleanPostmanVariables)
        | none => ""
      | _ => ""
    let queryParams :=
      match request.url with
      | .uobj o => o.query.getD []
      | _ => []
    let headers := request.header.getD []
    let descTruthy := optTruthy endpoint.description || optTruthy request.description
    let descVal :=
      if optTruthy endpoint.description then jsOrStr endpoint.description ""
      else optRender request.description
    "<div class=\"endpoint\" id=\"" ++ endpointId
      ++ "\">\n    <div class=\"endpoint-header\">\n      <span class=\"http-method "
      ++ methodClass ++ "\">" ++ method
      ++ "</span>\n      <span class=\"url-path\">" ++ (if urlPath.isEmpty then url else urlPath)
      ++ "</span>\n    </div>\n    \n    <h3>" ++ endpoint.name
      ++ "</h3>\n    \n    "
      ++ (if descTruthy then
            "<div class=\"endpoint-description\">" ++ converterMakeHtml descVal ++ "</div>"
          else "")
      ++ "\n    \n    <div class=\"endpoint-details\">"
      ++ querySection queryParams
      ++ headersSection headers
      ++ requestBodySection request.body
      ++ responsesSection endpoint.response
      ++ "</div>\n  </div>"

/-! ### The tree walkers (src/index.js lines 503-581) -/

mutual
/-- `generateFolderContent` from src/index.js lines 549-581. -/
def generateFolderContent : Item → List String → Nat → String
  | .mk name description ch _ _, parentPath, headerLevel =>
    let itemPath := parentPath ++ [name]
    let itemId := getFolderId (joinSep "-" itemPath)
    let headerTag := "h" ++ String.mk (printNat headerLevel)
    "<section id=\"" ++ itemId ++ "\">\n    <" ++ headerTag ++ ">" ++ name
      ++ "</" ++ headerTag ++ ">"
      ++ (if optTruthy description then
            "<div class=\"folder-description\">" ++ converterMakeHtml (jsOrStr description "") ++ "</div>"
          else "")
      ++ (match ch with
          | .osome children =>
            if itemsLen children > 0 then generateFolderChildren children itemPath headerLevel else ""
          | .onone => "")
      ++ "</section>"
/-- The `forEach` loop over a folder's children: nested folders recurse
with header level `min(headerLevel + 1, 6)`, endpoints render via
`generateEndpointContent`. -/
def generateFolderChildren : Items → List String → Nat → String
  | .inil, _, _ => ""
  | .icons sub rest, itemPath, headerLevel =>
    (if isFolder sub then generateFolderContent sub itemPath (min (headerLevel + 1) 6)
     else generateEndpointContent itemPath sub)
      ++ generateFolderChildren rest itemPath headerLevel
end

/-- `generateFoldersContent` from src/index.js lines 539-547: every
top-level item goes through `generateFolderContent` at header level 2. -/
def generateFoldersContent (folders : List Item) : String :=
  folders.foldl (fun acc folder => acc ++ generateFolderContent folder [] 2) ""

mutual
/-- `generateTocItem` from src/index.js lines 513-537. -/
def generateTocItem : Item → List String → String
  | .mk name _ ch _ _, parentPath =>
    let itemPath := parentPath ++ [name]
    let itemId := getFolderId (joinSep "-" itemPath)
    "<li><a href=\"#" ++ itemId ++ "\">" ++ name ++ "</a>"
      ++ (match ch with
          | .osome children =>
            if itemsLen children > 0 then "<ul>" ++ generateTocChildren children itemPath ++ "</ul>"
            else ""
          | .onone => "")
      ++ "</li>"
/-- The `forEach` loop over a folder's children in the TOC pass. -/
def generateTocChildren : Items → List String → String
  | .inil, _ => ""
  | .icons sub rest, itemPath =>
    (if isFolder sub then generateTocItem sub itemPath
     else "<li><a href=\"#" ++ getEndpointId itemPath sub.name ++ "\">" ++ sub.name ++ "</a></li>")
      ++ generateTocChildren rest itemPath
end

/-- `generateTableOfContents` from src/index.js lines 503-511. -/
def generateTableOfContents (folders : List Item) : String :=
  folders.foldl (fun acc folder => acc ++ generateTocItem folder []) ""

/-! ### Identifier and heading-level projections of the two passes -/

mutual
/-- The anchor identifiers emitted (as `href` targets) by
`generateTocItem`, in emission order. -/
def tocItemIds : Item → List String → List String
  | .mk name _ ch _ _, parentPath =>
    let itemPath := parentPath ++ [name]
    getFolderId (joinSep "-" itemPath)
      :: (match ch with
          | .osome children => if itemsLen children > 0 then tocChildrenIds children itemPath else []
          | .onone => [])
/-- The anchor identifiers emitted for a child list in the TOC pass. -/
def tocChildrenIds : Items → List String → List String
  | .inil, _ => []
  | .icons sub rest, itemPath =>
    (if isFolder sub then tocItemIds sub itemPath else [getEndpointId itemPath sub.name])
      ++ tocChildrenIds rest itemPath
end

/-- All anchor identifiers of the table-of-contents pass. -/
def tocIds (folders : List Item) : List String :=
  folders.flatMap (fun folder => tocItemIds folder [])

mutual
/-- The `section`/`div` element identifiers emitted by
`generateFolderContent` (and, for endpoint children, by
`generateEndpointContent`, both of whose branches emit the endpoint id),
in emission order. -/
def contentItemIds : Item → List String → Nat → List String
  | .mk name _ ch _ _, parentPath, headerLevel =>
    let itemPath := parentPath ++ [name]
    getFolderId (joinSep "-" itemPath)
      :: (match ch with
          | .osome children =>
            if itemsLen children > 0 then contentChildrenIds children itemPath headerLevel else []
          | .onone => [])
/-- The element identifiers emitted for a child list in the content pass. -/
def contentChildrenIds : Items → List String → Nat → List String
  | .inil, _, _ => []
  | .icons sub rest, itemPath, headerLevel =>
    (if isFolder sub then contentItemIds sub itemPath (min (headerLevel + 1) 6)
     else [getEndpointId itemPath sub.name])
      ++ contentChildrenIds rest itemPath headerLevel
end

/-- All element identifiers of the content pass (header level starts
at 2, as in `generateFoldersContent`). -/
def contentIds (folders : List Item) : List String :=
  folders.flatMap (fun folder => contentItemIds folder [] 2)

mutual
/-- The heading levels used for folder titles by `generateFolderContent`,
in emission order. -/
def folderLevels : Item → Nat → List Nat
  | .mk _ _ ch _ _, headerLevel =>
    headerLevel
      :: (match ch with
          | .osome children =>
            if itemsLen children > 0 then folderLevelsChildren children headerLevel else []
          | .onone => [])
/-- The heading levels of the folder children of a child list. -/
def folderLevelsChildren : Items → Nat → List Nat
  | .inil, _ => []
  | .icons sub rest, headerLevel =>
    (if isFolder sub then folderLevels sub (min (headerLevel + 1) 6) else [])
      ++ folderLevelsChildren rest headerLevel
end

/-- All folder heading levels of the content pass. -/
def foldersLevels (folders : List Item) : List Nat :=
  folders.flatMap (fun folder => folderLevels folder 2)

mutual
/-- The nesting depth of every node rendered with a heading by the
content pass, following the same traversal. -/
def folderDepths : Item → Nat → List Nat
  | .mk _ _ ch _ _, d =>
    d :: (match ch with
          | .osome children =>
            if itemsLen children > 0 then folderDepthsChildren children (d + 1) else []
          | .onone => [])
/-- The nesting depths of the folder children of a child list. -/
def folderDepthsChildren : Items → Nat → List Nat
  | .inil, _ => []
  | .icons sub rest, d =>
    (if isFolder sub then folderDepths sub d else []) ++ folderDepthsChildren rest d
end

/-- All folder nesting depths of the content pass (top level at depth 0). -/
def foldersDepths (folders : List Item) : List Nat :=
  folders.flatMap (fun folder => folderDepths folder 0)

mutual
/-- The number of nodes rendered by `generateFolderContent` starting at a
given node: one section for the node itself, plus, for each child, a
recursive count for folder children and one `div` for endpoint children. -/
def renderedNodes : Item → Nat
  | .mk _ _ ch _ _ =>
    1 + (match ch with
         | .osome children => if itemsLen children > 0 then renderedChildren children else 0
         | .onone => 0)
/-- The number of nodes rendered for a child list. -/
def renderedChildren : Items → Nat
  | .inil => 0
  | .icons sub rest => (if isFolder sub then renderedNodes sub else 1) + renderedChildren rest
end

mutual
/-- The total number of nodes of a collection subtree. -/
def sizeItem : Item → Nat
  | .mk _ _ ch _ _ =>
    1 + (match ch with
         | .osome children => sizeItems children
         | .onone => 0)
/-- The total number of nodes of a child list. -/
def sizeItems : Items → Nat
  | .inil => 0
  | .icons hd tl => sizeItem hd + sizeItems tl
end

/-- The number of nodes rendered for a whole collection's top-level list. -/
def renderedCount (folders : List Item) : Nat :=
  (folders.map renderedNodes).sum

/-- The number of nodes of a whole collection's top-level list. -/
def collectionSize (folders : List Item) : Nat :=
  (folders.map sizeItem).sum

/-! ### Library entry validation (src/unnamed/part_000, ESM generation:
`loadTranslations` lines 689-701 and `collectionToHTML` lines 704-762),
and the CLI argument validation (src/cli.js lines 132-146) -/

/-- `typeof v === "string"`. -/
def isStrV : JsValue → Bool
  | .vstr _ => true
  | _ => false

/-- The string payload of a JS value (meaningful after `isStrV`). -/
def strOfV : JsValue → String
  | .vstr s => s
  | _ => ""

/-- `["h1", "h2", "h3", "h4", "h5", "h6"].includes(divider)`
(`includes` compares with strict equality, so only strings match). -/
def isHeadingV : JsValue → Bool
  | .vstr s => ["h1", "h2", "h3", "h4", "h5", "h6"].contains s
  | _ => false

/-- The `options` argument of `collectionToHTML` in its object form; an
absent field models an absent property, so the destructuring defaults of
lines 707-712 apply exactly to absent fields. -/
structure OptionsObj where
  outputFile : Option JsValue
  language : Option JsValue
  logo : Option JsValue
  divider : Option JsValue
deriving DecidableEq

def effOutputFile (o : OptionsObj) : JsValue := o.outputFile.getD (.vstr "api-doc.html")

def effLanguage (o : OptionsObj) : JsValue := o.language.getD (.vstr "en")

def effLogo (o : OptionsObj) : JsValue := o.logo.getD .vnull

def effDivider (o : OptionsObj) : JsValue := o.divider.getD .vnull

/-- Whether `translations/<language>.json` exists. Spec-modelled: the
translations directory of the package ships exactly `en.json` and
`fr.json` (the two languages the README and CLI advertise); the directory
itself is not part of the source snapshot, so `fs.existsSync` is modelled
as membership in that set. -/
def translationFileExists (language : String) : Bool :=
  language == "en" || language == "fr"

/-- `loadTranslations` (part_000 lines 689-701) never throws for an
unsupported language: when the translation file is missing it emits a
`console.warn` and returns the English table. This models only the
observable fallback bit. -/
def loadTranslationsFallsBack (language : String) : Bool :=
  !translationFileExists language

/-- The boundary of `collectionToHTML` (part_000 lines 704-762) up to the
point where the input file would be read: the option destructuring with
defaults, the five type/shape validations in source order, then the
`loadTranslations` call. `Except.error` is a thrown `Error` with the
source's message; `Except.ok b` means validation passed with `b`
recording whether `loadTranslations` fell back to English. The
options-must-be-an-object check of lines 720-722 is satisfied by
construction here, since `OptionsObj` only models object arguments. -/
def collectionToHTMLBoundary (inputFile : JsValue) (options : OptionsObj) : Except String Bool :=
  let outputFile := effOutputFile options
  let language := effLanguage options
  let logo := effLogo options
  let divider := effDivider options
  if !isStrV inputFile then .error "Input file must be a string."
  else if !isStrV outputFile then .error "Output file must be a string."
  else if !isStrV language then .error "Language must be a string."
  else if !(logo == JsValue.vnull || isStrV logo) then .error "Logo SVG must be a string or null."
  else if !(divider == JsValue.vnull || isHeadingV divider) then
    .error "Divider must be one of: h1, h2, h3, h4, h5, h6, or null."
  else .ok (loadTranslationsFallsBack (strOfV language))

/-- `supportedLanguages` from src/cli.js line 133. -/
def cliSupportedLanguages : List String := ["en", "fr"]

/-- The CLI language validation (src/cli.js lines 132-138): the process
exits unless the language is in the supported list. -/
def cliLanguageOk (language : String) : Bool := cliSupportedLanguages.contains language

/-- `validDividers` from src/cli.js line 141. -/
def cliValidDividers : List String := ["h1", "h2", "h3", "h4", "h5", "h6"]

/-- The CLI divider validation (src/cli.js lines 140-146): rejected only
when the divider is truthy and not in the valid list. -/
def cliDividerOk (divider : Option String) : Bool :=
  !optTruthy divider || cliValidDividers.contains (jsOrStr divider "")

/-! ### C10: top-level endpoints are rendered as folders -/

/-- C10: a top-level node with no child array (a bare endpoint) is still
routed through `generateFolderContent` and `generateTocItem` by the
top-level loops: it gets a `folder-` identifier, a heading-only section
and a plain TOC entry, and its `request` and `response` payloads have no
influence whatsoever on the output — its endpoint content is silently
dropped. -/
theorem toplevel_endpoint_rendered_as_folder :
    ∀ (name : String) (description : Option String) (request : Option Request)
      (response : Option (List Response)),
      generateFoldersContent [Item.mk name description .onone request response]
        = generateFolderContent (Item.mk name description .onone request response) [] 2 ∧
      generateFolderContent (Item.mk name description .onone request response) [] 2
        = generateFolderContent (Item.mk name description .onone none none) [] 2 ∧
      generateTocItem (Item.mk name description .onone request response) []
        = generateTocItem (Item.mk name description .onone none none) [] ∧
      generateFolderContent (Item.mk name description .onone request response) [] 2
        = "<section id=\"folder-" ++ slugify name ++ "\">\n    <h2>" ++ name ++ "</h2>"
          ++ (if optTruthy description then
                "<div class=\"folder-description\">" ++ converterMakeHtml (jsOrStr description "") ++ "</div>"
              else "")
          ++ "</section>" ∧
      generateTocItem (Item.mk name description .onone request response) []
        = "<li><a href=\"#folder-" ++ slugify name ++ "\">" ++ name ++ "</a></li>" := by
  intro name description request response
  refine ⟨?_, rfl, rfl, ?_, ?_⟩
  · show "" ++ generateFolderContent (Item.mk name description .onone request response) [] 2 = _
    exact String.empty_append _
  · apply String.ext
    by_cases hd : optTruthy description
    · simp [generateFolderContent, getFolderId, joinSep, hd, String.data_append,
        show String.mk (printNat 2) = "2" from by decide]
    · simp [generateFolderContent, getFolderId, joinSep, hd, String.data_append,
        show String.mk (printNat 2) = "2" from by decide]
  · apply String.ext
    simp [generateTocItem, getFolderId, joinSep, String.data_append]

/-! ### C9: boundary validation of configuration errors -/

/-- C9 (counterexample): an unsupported language selection is NOT
rejected by the library boundary: with language `"de"` (and an otherwise
valid configuration) `collectionToHTML` does not throw — validation
passes and `loadTranslations` merely falls back to English (the `true`
flag) after a console warning, so the conversion proceeds. -/
theorem unsupported_language_not_rejected :
    collectionToHTMLBoundary (.vstr "collection.json")
        ⟨none, some (.vstr "de"), none, none⟩ = .ok true := rfl

/-- C9 (amended): of the three configuration errors only the non-string
logo and the invalid divider abort `collectionToHTML` at the boundary
with a descriptive error, in source order, before any traversal; an
unsupported language that is still a string never aborts the library —
validation succeeds and the translation loader falls back to English —
while the CLI front-end separately rejects languages outside en/fr
before invoking the library. -/
theorem config_boundary_validation :
    (∀ (inputFile : JsValue) (o : OptionsObj),
      isStrV inputFile = true → isStrV (effOutputFile o) = true →
      isStrV (effLanguage o) = true →
      effLogo o ≠ JsValue.vnull → isStrV (effLogo o) = false →
      collectionToHTMLBoundary inputFile o = .error "Logo SVG must be a string or null.") ∧
    (∀ (inputFile : JsValue) (o : OptionsObj),
      isStrV inputFile = true → isStrV (effOutputFile o) = true →
      isStrV (effLanguage o) = true →
      (effLogo o = JsValue.vnull ∨ isStrV (effLogo o) = true) →
      effDivider o ≠ JsValue.vnull → isHeadingV (effDivider o) = false →
      collectionToHTMLBoundary inputFile o
        = .error "Divider must be one of: h1, h2, h3, h4, h5, h6, or null.") ∧
    (∀ (inputFile : JsValue) (o : OptionsObj) (s : String),
      isStrV inputFile = true → isStrV (effOutputFile o) = true →
      effLanguage o = JsValue.vstr s →
      (effLogo o = JsValue.vnull ∨ isStrV (effLogo o) = true) →
      (effDivider o = JsValue.vnull ∨ isHeadingV (effDivider o) = true) →
      collectionToHTMLBoundary inputFile o = .ok (!translationFileExists s)) ∧
    (∀ language : String, cliLanguageOk language = true ↔ (language = "en" ∨ language = "fr")) := by
  refine ⟨?_, ?_, ?_, ?_⟩
  · intro inputFile o h1 h2 h3 hne hF
    have hb : (effLogo o == JsValue.vnull) = false := beq_eq_false_iff_ne.mpr hne
    simp [collectionToHTMLBoundary, h1, h2, h3, hb, hF]
  · intro inputFile o h1 h2 h3 hlogo hne hF
    have hb : (effLogo o == JsValue.vnull || isStrV (effLogo o)) = true := by
      rcases hlogo with h | h
      · simp [h]
      · simp [h]
    have hd : (effDivider o == JsValue.vnull) = false := beq_eq_false_iff_ne.mpr hne
    simp [collectionToHTMLBoundary, h1, h2, h3, hb, hd, hF]
  · intro inputFile o s h1 h2 hlang hlogo hdiv
    have hb : (effLogo o == JsValue.vnull || isStrV (effLogo o)) = true := by
      rcases hlogo with h | h
      · simp [h]
      · simp [h]
    have hd : (effDivider o == JsValue.vnull || isHeadingV (effDivider o)) = true := by
      rcases hdiv with h | h
      · simp [h]
      · simp [h]
    have hlang3 : isStrV (effLanguage o) = true := by rw [hlang]; rfl
    have hstr : strOfV (effLanguage o) = s := by rw [hlang]; rfl
    simp [collectionToHTMLBoundary, h1, h2, hlang3, hstr, hb, hd, loadTranslationsFallsBack]
  · intro language
    constructor
    · intro h
      have hm : language ∈ cliSupportedLanguages := by
        simpa [cliLanguageOk, List.elem_iff] using h
      simpa [cliSupportedLanguages] using hm
    · intro h
      rcases h with h | h <;> simp [cliLanguageOk, cliSupportedLanguages, h]

/-- Witness for C9 at concrete configurations: a numeric logo and an
`h7` divider are each rejected with their source message, a supported
language passes without fallback, and the CLI accepts `en`. -/
theorem config_boundary_validation_witness :
    collectionToHTMLBoundary (.vstr "c.json") ⟨none, none, some (.vnum 5), none⟩
      = .error "Logo SVG must be a string or null." ∧
    collectionToHTMLBoundary (.vstr "c.json") ⟨none, none, none, some (.vstr "h7")⟩
      = .error "Divider must be one of: h1, h2, h3, h4, h5, h6, or null." ∧
    collectionToHTMLBoundary (.vstr "c.json") ⟨none, some (.vstr "fr"), none, none⟩
      = .ok false ∧
    cliLanguageOk "en" = true := by
  refine ⟨?_, ?_, ?_, ?_⟩
  · exact config_boundary_validation.1 _ _ rfl rfl rfl (by decide) rfl
  · exact config_boundary_validation.2.1 _ _ rfl rfl rfl (Or.inl rfl) (by decide) rfl
  · have h := config_boundary_validation.2.2.1 (JsValue.vstr "c.json")
      (OptionsObj.mk none (some (JsValue.vstr "fr")) none none) "fr" rfl rfl rfl
      (Or.inl rfl) (Or.inl rfl)
    simpa using h
  · exact (config_boundary_validation.2.2.2 "en").mpr (Or.inl rfl)

/-! ### C1: identifier agreement between the two passes -/

mutual
/-- The TOC pass and the content pass derive the same identifier list for
any node, whatever header level the content pass carries. -/
theorem tocItemIds_eq_contentItemIds (item : Item) (path : List String) (l : Nat) :
    tocItemIds item path = contentItemIds item path l := by
  cases item with
  | mk name d ch r rs =>
    cases ch with
    | onone => rfl
    | osome children =>
      simp only [tocItemIds, contentItemIds]
      by_cases h : itemsLen children > 0
      · simp only [if_pos h, tocChildrenIds_eq_contentChildrenIds children (path ++ [name]) l]
      · simp only [if_neg h]
/-- Child-list version of the identifier agreement. -/
theorem tocChildrenIds_eq_contentChildrenIds (children : Items) (path : List String) (l : Nat) :
    tocChildrenIds children path = contentChildrenIds children path l := by
  cases children with
  | inil => rfl
  | icons sub rest =>
    simp only [tocChildrenIds, contentChildrenIds,
      tocChildrenIds_eq_contentChildrenIds rest path l]
    by_cases h : isFolder sub
    · simp only [if_pos h, tocItemIds_eq_contentItemIds sub path (min (l + 1) 6)]
    · simp only [if_neg h]
end

/-- C1 (amended): the table-of-contents pass and the content pass emit
identical identifier sequences for every collection — each anchor
emitted by `generateTocItem` corresponds, in order, to the identifier of
a section or endpoint `div` emitted by the content pass, and vice versa.
(Uniqueness, and with it the claimed `exactly one matching` bijection,
can still fail: see the counterexample.) -/
theorem toc_content_ids_agree : ∀ folders : List Item, tocIds folders = contentIds folders := by
  intro folders
  induction folders with
  | nil => rfl
  | cons f fs ih =>
    simp only [tocIds, contentIds, List.flatMap_cons] at ih ⊢
    rw [ih, tocItemIds_eq_contentItemIds f [] 2]

/-- C1 (counterexample): two sibling top-level folders named `A` and `a`
(distinct node paths) both slugify to the anchor `folder-a`, so the TOC
emits the identifier `folder-a` for which the content pass has TWO
matching section identifiers — refuting both `exactly one matching`
(bijection with uniqueness) and the globally-unique-identifier guarantee. -/
theorem toc_ids_not_unique_counterexample :
    tocIds [Item.mk "A" none .onone none none, Item.mk "a" none .onone none none]
      = ["folder-a", "folder-a"] ∧
    (contentIds [Item.mk "A" none .onone none none,
        Item.mk "a" none .onone none none]).count "folder-a" = 2 := by
  constructor
  · rfl
  · rfl

/-! ### C5: heading levels cap at 6 and the whole tree is rendered -/

mutual
/-- Shifting the starting depth shifts every reported depth. -/
theorem folderDepths_shift (item : Item) (d : Nat) :
    folderDepths item d = (folderDepths item 0).map (fun k => k + d) := by
  cases item with
  | mk name dsc ch r rs =>
    cases ch with
    | onone => simp [folderDepths]
    | osome children =>
      simp only [folderDepths]
      by_cases h : itemsLen children > 0
      · simp only [if_pos h, List.map_cons, Nat.zero_add,
          folderDepthsChildren_shift children (d + 1),
          folderDepthsChildren_shift children 1, List.map_map]
        refine congrArg (d :: ·) (List.map_congr_left ?_)
        intro a _
        simp [Function.comp]
        omega
      · simp [if_neg h]
/-- Child-list version of the depth-shift lemma. -/
theorem folderDepthsChildren_shift (children : Items) (d : Nat) :
    folderDepthsChildren children d = (folderDepthsChildren children 0).map (fun k => k + d) := by
  cases children with
  | inil => rfl
  | icons sub rest =>
    simp only [folderDepthsChildren, List.map_append,
      folderDepthsChildren_shift rest d]
    by_cases h : isFolder sub
    · simp only [if_pos h, folderDepths_shift sub d]
    · simp only [if_neg h, List.map_nil]
end

mutual
/-- The heading levels used by the content pass are exactly
`min(start + depth, 6)` over the pre-order folder depths, for any start
level at most 6. -/
theorem folderLevels_min_depths (item : Item) (l : Nat) (hl : l ≤ 6) :
    folderLevels item l = (folderDepths item 0).map (fun k => min (l + k) 6) := by
  cases item with
  | mk name dsc ch r rs =>
    cases ch with
    | onone => simpa [folderLevels, folderDepths] using (Nat.min_eq_left hl).symm
    | osome children =>
      simp only [folderLevels, folderDepths]
      by_cases h : itemsLen children > 0
      · simp only [if_pos h, List.map_cons, Nat.add_zero,
          folderLevelsChildren_min_depths children l hl,
          folderDepthsChildren_shift children 1, List.map_map]
        rw [Nat.min_eq_left hl]
        refine congrArg (l :: ·) (List.map_congr_left ?_)
        intro a _
        simp [Function.comp]
        omega
      · simp only [if_neg h, List.map_cons, List.map_nil, Nat.add_zero]
        rw [Nat.min_eq_left hl]
/-- Child-list version: children are folders at one additional nesting
level. -/
theorem folderLevelsChildren_min_depths (children : Items) (l : Nat) (hl : l ≤ 6) :
    folderLevelsChildren children l
      = (folderDepthsChildren children 0).map (fun k => min (l + 1 + k) 6) := by
  cases children with
  | inil => rfl
  | icons sub rest =>
    simp only [folderLevelsChildren, folderDepthsChildren, List.map_append,
      folderLevelsChildren_min_depths rest l hl]
    by_cases h : isFolder sub
    · simp only [if_pos h]
      rw [folderLevels_min_depths sub (min (l + 1) 6) (Nat.min_le_right _ _)]
      refine congrArg (· ++ _) (List.map_congr_left ?_)
      intro a _
      omega
    · simp only [if_neg h, List.map_nil]
end

mutual
/-- Every node of the subtree is rendered: the generator's rendering
count equals the subtree size. -/
theorem renderedNodes_eq_sizeItem (item : Item) : renderedNodes item = sizeItem item := by
  cases item with
  | mk name dsc ch r rs =>
    cases ch with
    | onone => rfl
    | osome children =>
      simp only [renderedNodes, sizeItem]
      by_cases h : itemsLen children > 0
      · rw [if_pos h, renderedChildren_eq_sizeItems children]
      · cases children with
        | inil => simp [renderedChildren, sizeItems]
        | icons sub rest => simp [itemsLen] at h
/-- Child-list version of the rendering count. -/
theorem renderedChildren_eq_sizeItems (children : Items) :
    renderedChildren children = sizeItems children := by
  cases children with
  | inil => rfl
  | icons sub rest =>
    simp only [renderedChildren, sizeItems, renderedChildren_eq_sizeItems rest]
    by_cases h : isFolder sub
    · rw [if_pos h, renderedNodes_eq_sizeItem sub]
    · rw [if_neg h]
      cases sub with
      | mk n d ch r rs =>
        cases ch with
        | onone => rfl
        | osome c => simp [isFolder, Item.item] at h
end

/-- C5: for every collection of any nesting depth, the heading level the
content pass uses for a folder at pre-order depth `d` (top level at
depth 0, rendered at `h2`) is exactly `min(2 + d, 6)` — it increases by
one per nesting level and caps at 6 — every used level is at most 6, and
the number of rendered nodes equals the total number of nodes in the
tree (every descendant is still rendered). -/
theorem folder_heading_levels_cap :
    (∀ folders : List Item,
      foldersLevels folders = (foldersDepths folders).map (fun d => min (2 + d) 6)) ∧
    (∀ folders : List Item, ∀ l ∈ foldersLevels folders, l ≤ 6) ∧
    (∀ folders : List Item, renderedCount folders = collectionSize folders) := by
  have hmain : ∀ folders : List Item,
      foldersLevels folders = (foldersDepths folders).map (fun d => min (2 + d) 6) := by
    intro folders
    induction folders with
    | nil => rfl
    | cons f fs ih =>
      simp only [foldersLevels, foldersDepths, List.flatMap_cons, List.map_append] at ih ⊢
      rw [ih, folderLevels_min_depths f 2 (by omega)]
  refine ⟨hmain, ?_, ?_⟩
  · intro folders l hl
    rw [hmain folders] at hl
    obtain ⟨d, _, hd⟩ := List.mem_map.mp hl
    omega
  · intro folders
    induction folders with
    | nil => rfl
    | cons f fs ih =>
      simp only [renderedCount, collectionSize, List.map_cons, List.sum_cons] at ih ⊢
      rw [ih, renderedNodes_eq_sizeItem f]

/-! ### C8: the query-parameter filter and table rows -/

/-- Hoisting the accumulator out of a string-building `forEach` fold. -/
theorem foldl_str_hoist {α : Type} (f : α → String) (l : List α) (acc : String) :
    l.foldl (fun a p => a ++ f p) acc = acc ++ l.foldl (fun a p => a ++ f p) "" := by
  induction l generalizing acc with
  | nil => simp [String.append_empty]
  | cons p l ih =>
    simp only [List.foldl_cons]
    rw [ih (acc ++ f p), ih ("" ++ f p), String.empty_append, String.append_assoc]

/-- C8 (counterexample): a parameter whose key is present but empty is
excluded from the rendered table even though its key does not
case-insensitively equal `token` or `key` — the filter also drops every
parameter with a missing or empty key, refuting `exactly those
parameters whose key equals token or key are excluded`. -/
theorem query_param_filter_counterexample :
    filteredQueryParams [⟨some "", some "v", none⟩] = [] ∧
    jsLowerStr (jsOrStr (some "") "") ≠ "token" ∧
    jsLowerStr (jsOrStr (some "") "") ≠ "key" := by
  refine ⟨rfl, ?_, ?_⟩ <;> decide

/-- C8 (amended): a parameter survives the filter exactly when its key is
present and non-empty AND lower-cases to neither `token` nor `key`;
surviving parameters render as key/normalized-value/description table
rows in source order (the rows fold emits one row per parameter, in
order), and the query-parameters section appears exactly when some
parameter survives. -/
theorem query_param_filter_amended :
    (∀ (params : List QueryParam) (param : QueryParam),
      param ∈ filteredQueryParams params ↔
        param ∈ params ∧ optTruthy param.key = true ∧
        jsLowerStr (jsOrStr param.key "") ≠ "token" ∧
        jsLowerStr (jsOrStr param.key "") ≠ "key") ∧
    queryRows [] = "" ∧
    (∀ (param : QueryParam) (params : List QueryParam),
      queryRows (param :: params) = queryParamRow param ++ queryRows params) ∧
    (∀ params : List QueryParam,
      filteredQueryParams params = [] → querySection params = "") ∧
    (∀ params : List QueryParam,
      filteredQueryParams params ≠ [] →
      querySection params
        = "<div class=\"params-section\">\n      <h4>Query Parameters</h4>\n      <table>\n        <thead>\n          <tr>\n            <th>Parameter</th>\n            <th>Value</th>\n            <th>Description</th>\n          </tr>\n        </thead>\n        <tbody>"
          ++ queryRows (filteredQueryParams params)
          ++ "</tbody>\n      </table>\n    </div>") := by
  refine ⟨?_, rfl, ?_, ?_, ?_⟩
  · intro params param
    simp [filteredQueryParams, List.mem_filter, and_assoc]
  · intro param params
    simp only [queryRows, List.foldl_cons]
    rw [foldl_str_hoist, String.empty_append]
  · intro params h
    simp [querySection, h]
  · intro params h
    have hlen : (filteredQueryParams params).length > 0 := by
      cases hq : filteredQueryParams params with
      | nil => exact absurd hq h
      | cons a l => simp [hq]
    simp [querySection, hlen]

/-- Witness for C8: a surviving parameter renders its row inside the
section, and a list whose only parameter is key-less renders no section. -/
theorem query_param_filter_amended_witness :
    ((⟨some "limit", some "10", some "max items"⟩ : QueryParam)
        ∈ filteredQueryParams [⟨some "limit", some "10", some "max items"⟩] ↔
      (⟨some "limit", some "10", some "max items"⟩ : QueryParam)
          ∈ [(⟨some "limit", some "10", some "max items"⟩ : QueryParam)] ∧
        optTruthy (some "limit") = true ∧
        jsLowerStr (jsOrStr (some "limit") "") ≠ "token" ∧
        jsLowerStr (jsOrStr (some "limit") "") ≠ "key") ∧
    queryRows [⟨some "limit", some "10", some "max items"⟩]
      = queryParamRow ⟨some "limit", some "10", some "max items"⟩ ++ queryRows [] ∧
    querySection [⟨none, some "v", none⟩] = "" ∧
    querySection [⟨some "limit", some "10", some "max items"⟩]
      = "<div class=\"params-section\">\n      <h4>Query Parameters</h4>\n      <table>\n        <thead>\n          <tr>\n            <th>Parameter</th>\n            <th>Value</th>\n            <th>Description</th>\n          </tr>\n        </thead>\n        <tbody>"
        ++ queryRows (filteredQueryParams [⟨some "limit", some "10", some "max items"⟩])
        ++ "</tbody>\n      </table>\n    </div>" :=
  ⟨query_param_filter_amended.1 _ _,
   query_param_filter_amended.2.2.1 _ _,
   query_param_filter_amended.2.2.2.1 _ rfl,
   query_param_filter_amended.2.2.2.2 _ (by decide)⟩

/-! ### C6: the collapse display hint for long response bodies -/

/-- The newline splitter never returns an empty list. -/
theorem splitNl_ne_nil (l : List Char) : splitNl l ≠ [] := by
  induction l with
  | nil => simp [splitNl]
  | cons c cs ih =>
    simp only [splitNl]
    by_cases h : c = '\n'
    · simp [h]
    · rw [if_neg h]
      cases hs : splitNl cs with
      | nil => simp
      | cons p ps => simp

/-- `split("\n").length` counts newline-delimited lines: one more than
the number of newline characters. -/
theorem splitNl_length (l : List Char) : (splitNl l).length = l.count '\n' + 1 := by
  induction l with
  | nil => rfl
  | cons c cs ih =>
    simp only [splitNl]
    by_cases h : c = '\n'
    · simp [h, ih, List.count_cons]
    · rw [if_neg h]
      cases hs : splitNl cs with
      | nil => exact absurd hs (splitNl_ne_nil cs)
      | cons p ps =>
        have hcnt : (c :: cs).count '\n' = cs.count '\n' :=
          List.count_cons_of_ne (fun hc => h hc.symm) cs
        rw [hs] at ih
        simp only [List.length_cons] at ih ⊢
        omega

set_option maxRecDepth 8192 in
/-- C6: a rendered response example with a present, non-empty body: the
line count is the number of newline characters of the formatted body
plus one; when it exceeds 10 the body container carries the `collapsed`
class and is followed by an expand toggle button, and when it is at most
10 neither appears — in both cases the full formatted body text is
embedded verbatim in the output, never truncated. -/
theorem response_body_collapse (r : Response) (body : String)
    (hb : r.body = some body) (hne : body ≠ "") :
    (lineCount (formatResponseBody (responseLanguage r) body)
        = (formatResponseBody (responseLanguage r) body).data.count '\n' + 1) ∧
    (10 < lineCount (formatResponseBody (responseLanguage r) body) →
      renderResponse r
        = "<div class=\"response-example\">\n        "
          ++ (if responseContentType r != "text/plain" then
                "<p><strong>Content-Type:</strong> " ++ responseContentType r ++ "</p>"
              else "")
          ++ "<div class=\"response-body collapsed\">\n          <pre><code class=\"language-"
          ++ responseLanguage r ++ "\">" ++ formatResponseBody (responseLanguage r) body
          ++ "</code></pre>\n        </div><button class=\"expand-button\">Afficher tout</button></div>") ∧
    (lineCount (formatResponseBody (responseLanguage r) body) ≤ 10 →
      renderResponse r
        = "<div class=\"response-example\">\n        "
          ++ (if responseContentType r != "text/plain" then
                "<p><strong>Content-Type:</strong> " ++ responseContentType r ++ "</p>"
              else "")
          ++ "<div class=\"response-body\">\n          <pre><code class=\"language-"
          ++ responseLanguage r ++ "\">" ++ formatResponseBody (responseLanguage r) body
          ++ "</code></pre>\n        </div></div>") := by
  have htr : optTruthy r.body = true := by
    rw [hb]
    simp only [optTruthy, Bool.not_eq_true']
    cases hh : body.isEmpty
    · rfl
    · exact absurd ((String.isEmpty_iff body).mp hh) hne
  have hie : body.isEmpty = false := by
    cases hh : body.isEmpty
    · rfl
    · exact absurd ((String.isEmpty_iff body).mp hh) hne
  have hjs : jsOrStr r.body "" = body := by
    rw [hb]
    simp [jsOrStr, optTruthy, hie]
  refine ⟨by simpa [lineCount] using
    splitNl_length (formatResponseBody (responseLanguage r) body).data, ?_, ?_⟩
  · intro hlong
    rw [renderResponse, htr]
    simp only [if_true, hjs]
    rw [if_pos hlong, if_pos hlong]
    apply String.ext
    simp [String.data_append]
  · intro hshort
    have hnot : ¬ 10 < lineCount (formatResponseBody (responseLanguage r) body) := by omega
    rw [renderResponse, htr]
    simp only [if_true, hjs]
    rw [if_neg hnot, if_neg hnot]
    apply String.ext
    simp [String.data_append]

/-- A fifteen-line response body (the spec's end-to-end scenario) and a
one-line body, wrapped as response examples with no headers. -/
def longBody : String := "1\n2\n3\n4\n5\n6\n7\n8\n9\n10\n11\n12\n13\n14\n15"

def longResp : Response := ⟨none, some longBody, none⟩

def shortResp : Response := ⟨none, some "ok", none⟩

/-- Witness for C6: the fifteen-line body is marked collapsed with an
expand button and kept in full; the one-line body gets neither. -/
theorem response_body_collapse_witness :
    (10 < lineCount (formatResponseBody (responseLanguage longResp) longBody) ∧
      renderResponse longResp
        = "<div class=\"response-example\">\n        "
          ++ (if responseContentType longResp != "text/plain" then
                "<p><strong>Content-Type:</strong> " ++ responseContentType longResp ++ "</p>"
              else "")
          ++ "<div class=\"response-body collapsed\">\n          <pre><code class=\"language-"
          ++ responseLanguage longResp ++ "\">" ++ formatResponseBody (responseLanguage longResp) longBody
          ++ "</code></pre>\n        </div><button class=\"expand-button\">Afficher tout</button></div>") ∧
    (lineCount (formatResponseBody (responseLanguage shortResp) "ok") ≤ 10 ∧
      renderResponse shortResp
        = "<div class=\"response-example\">\n        "
          ++ (if responseContentType shortResp != "text/plain" then
                "<p><strong>Content-Type:</strong> " ++ responseContentType shortResp ++ "</p>"
              else "")
          ++ "<div class=\"response-body\">\n          <pre><code class=\"language-"
          ++ responseLanguage shortResp ++ "\">" ++ formatResponseBody (responseLanguage shortResp) "ok"
          ++ "</code></pre>\n        </div></div>") :=
  ⟨⟨by decide, (response_body_collapse longResp longBody rfl (by decide)).2.1 (by decide)⟩,
   ⟨by decide, (response_body_collapse shortResp "ok" rfl (by decide)).2.2 (by decide)⟩⟩

/-! ### C7: substring machinery for the no-request placeholder -/

theorem isPrefixOfL_refl (p : List Char) : isPrefixOfL p p = true := by
  induction p with
  | nil => rfl
  | cons c cs ih => simp [isPrefixOfL, ih]

theorem isPrefixOfL_append_extend (p u v : List Char) (h : isPrefixOfL p u = true) :
    isPrefixOfL p (u ++ v) = true := by
  induction p generalizing u with
  | nil => rfl
  | cons c cs ih =>
    cases u with
    | nil => simp [isPrefixOfL] at h
    | cons d ds =>
      simp only [isPrefixOfL, List.cons_append, Bool.and_eq_true] at h ⊢
      exact ⟨h.1, ih ds h.2⟩

theorem isPrefixOfL_subset (p u : List Char) (h : isPrefixOfL p u = true) :
    ∀ c ∈ p, c ∈ u := by
  induction p generalizing u with
  | nil => intro c hc; simp at hc
  | cons a p' ih =>
    cases u with
    | nil => simp [isPrefixOfL] at h
    | cons b u' =>
      simp only [isPrefixOfL, Bool.and_eq_true, decide_eq_true_eq] at h
      intro c hc
      rcases List.mem_cons.mp hc with hc | hc
      · exact hc ▸ h.1 ▸ List.mem_cons_self b u'
      · exact List.mem_cons_of_mem b (ih u' h.2 c hc)

theorem isPrefixOfL_append_left (m u y : List Char) (h : isPrefixOfL m (u ++ y) = true)
    (hle : m.length ≤ u.length) : isPrefixOfL m u = true := by
  induction m generalizing u with
  | nil => rfl
  | cons a m' ih =>
    cases u with
    | nil => simp at hle
    | cons b u' =>
      simp only [isPrefixOfL, List.cons_append, Bool.and_eq_true] at h ⊢
      exact ⟨h.1, ih u' h.2 (by simpa using hle)⟩

theorem isPrefixOfL_take (m u y : List Char) (h : isPrefixOfL m (u ++ y) = true)
    (hle : u.length ≤ m.length) : m.take u.length = u := by
  induction u generalizing m with
  | nil => simp
  | cons b u' ih =>
    cases m with
    | nil => simp at hle
    | cons a m' =>
      simp only [isPrefixOfL, List.cons_append, Bool.and_eq_true, decide_eq_true_eq] at h
      simp only [List.length_cons, List.take_succ_cons]
      exact h.1 ▸ congrArg (a :: ·) (ih m' h.2 (by simpa using hle))

theorem isPrefixOfL_drop (m u y : List Char) (h : isPrefixOfL m (u ++ y) = true) :
    isPrefixOfL (m.drop u.length) y = true := by
  induction u generalizing m with
  | nil => simpa using h
  | cons b u' ih =>
    cases m with
    | nil => rfl
    | cons a m' =>
      simp only [isPrefixOfL, List.cons_append, Bool.and_eq_true] at h
      simpa using ih m' h.2

theorem isSuffixL_refl (u : List Char) : isSuffixL u u = true := isPrefixOfL_refl _

theorem isSuffixL_cons_extend (s : List Char) (c : Char) (x : List Char)
    (h : isSuffixL s x = true) : isSuffixL s (c :: x) = true := by
  rw [isSuffixL, List.reverse_cons]
  exact isPrefixOfL_append_extend _ _ _ h

theorem isSuffixL_subset (s x : List Char) (h : isSuffixL s x = true) :
    ∀ c ∈ s, c ∈ x := by
  intro c hc
  exact List.mem_reverse.mp
    (isPrefixOfL_subset _ _ h c (List.mem_reverse.mpr hc))

theorem containsSeg_subset (m l : List Char) (h : containsSeg m l = true) :
    ∀ c ∈ m, c ∈ l := by
  induction l with
  | nil =>
    intro c hc
    cases m with
    | nil => simp at hc
    | cons a m' => simp [containsSeg] at h
  | cons d ds ih =>
    intro c hc
    simp only [containsSeg, Bool.or_eq_true] at h
    rcases h with h | h
    · exact isPrefixOfL_subset m (d :: ds) h c hc
    · exact List.mem_cons_of_mem d (ih h c hc)

/-- Decomposition of a substring occurrence over a concatenation: the
marker occurs inside the left part, inside the right part, or straddles
the boundary with a non-trivial split. -/
theorem contains_split (m x y : List Char) (h : containsSeg m (x ++ y) = true) :
    containsSeg m x = true ∨ containsSeg m y = true ∨
    ∃ k, 0 < k ∧ k < m.length ∧ isSuffixL (m.take k) x = true ∧
      isPrefixOfL (m.drop k) y = true := by
  induction x with
  | nil => exact Or.inr (Or.inl h)
  | cons c x' ih =>
    have h' : (isPrefixOfL m (c :: (x' ++ y)) || containsSeg m (x' ++ y)) = true := by
      simpa [containsSeg] using h
    rcases (by simpa using h' :
        isPrefixOfL m (c :: (x' ++ y)) = true ∨ containsSeg m (x' ++ y) = true) with hp | hrec
    · cases m with
      | nil => exact Or.inl rfl
      | cons a m' =>
        by_cases hlen : (a :: m').length ≤ (c :: x').length
        · left
          have hpre : isPrefixOfL (a :: m') (c :: x') = true :=
            isPrefixOfL_append_left (a :: m') (c :: x') y hp hlen
          simp [containsSeg, hpre]
        · push_neg at hlen
          right; right
          refine ⟨(c :: x').length, by simp, hlen, ?_, ?_⟩
          · rw [isPrefixOfL_take (a :: m') (c :: x') y hp (Nat.le_of_lt hlen)]
            exact isSuffixL_refl _
          · exact isPrefixOfL_drop (a :: m') (c :: x') y hp
    · rcases ih hrec with h1 | h2 | ⟨k, hk0, hkm, hsuf, hpre⟩
      · left
        simp [containsSeg, h1]
      · exact Or.inr (Or.inl h2)
      · exact Or.inr (Or.inr ⟨k, hk0, hkm, isSuffixL_cons_extend _ c _ hsuf, hpre⟩)

/-- Absence of a marker in a concatenation follows from absence in both
parts plus impossibility of every boundary straddle. -/
theorem contains_false_glue (m x y : List Char)
    (hx : containsSeg m x = false)
    (hstr : ∀ k, 0 < k → k < m.length →
      ¬(isSuffixL (m.take k) x = true ∧ isPrefixOfL (m.drop k) y = true))
    (hy : containsSeg m y = false) :
    containsSeg m (x ++ y) = false := by
  cases hc : containsSeg m (x ++ y)
  · rfl
  · exfalso
    rcases contains_split m x y hc with h | h | ⟨k, h1, h2, h3, h4⟩
    · rw [hx] at h; simp at h
    · rw [hy] at h; simp at h
    · exact hstr k h1 h2 ⟨h3, h4⟩

theorem head_mem_take (a : Char) (l : List Char) (k : Nat) (hk : 0 < k) :
    a ∈ (a :: l).take k := by
  cases k with
  | zero => omega
  | succ j => simp [List.take_succ_cons]

/-- Slugified text never contains an angle bracket. -/
theorem slugify_no_lt (s : String) : '<' ∉ (slugify s).data := by
  intro hmem
  have h := slugifyList_chars s.data '<' hmem
  exact absurd h (by decide)

/-- Character property preservation through the `Array.join` fold. -/
theorem foldl_join_chars (P : Char → Prop) (sep : String) (l : List String) (acc : String)
    (hacc : ∀ c ∈ acc.data, P c) (hsep : ∀ c ∈ sep.data, P c)
    (hl : ∀ s ∈ l, ∀ c ∈ s.data, P c) :
    ∀ c ∈ (l.foldl (fun a y => a ++ sep ++ y) acc).data, P c := by
  induction l generalizing acc with
  | nil => exact hacc
  | cons s l ih =>
    intro c hc
    refine ih (acc ++ sep ++ s) ?_ (fun t ht => hl t (List.mem_cons_of_mem _ ht)) c hc
    intro d hd
    simp only [String.data_append, List.mem_append] at hd
    rcases hd with (hd | hd) | hd
    · exact hacc d hd
    · exact hsep d hd
    · exact hl s (List.mem_cons_self s l) d hd

/-- Character property preservation through `joinSep`. -/
theorem joinSep_chars (P : Char → Prop) (sep : String) (l : List String)
    (hsep : ∀ c ∈ sep.data, P c) (hl : ∀ s ∈ l, ∀ c ∈ s.data, P c) :
    ∀ c ∈ (joinSep sep l).data, P c := by
  cases l with
  | nil => intro c hc; simp [joinSep] at hc
  | cons s l =>
    exact foldl_join_chars P sep l s (hl s (List.mem_cons_self s l)) hsep
      (fun t ht => hl t (List.mem_cons_of_mem _ ht))

/-- Endpoint identifiers never contain an angle bracket. -/
theorem getEndpointId_no_lt (path : List String) (name : String) :
    '<' ∉ (getEndpointId path name).data := by
  intro hmem
  rw [getEndpointId] at hmem
  simp only [String.data_append, List.mem_append] at hmem
  rcases hmem with ((h | h) | h) | h
  · exact absurd h (by decide)
  · refine joinSep_chars (fun c => c ≠ '<') "-" (path.map slugify) (by decide) ?_ '<' h rfl
    intro s hs c hc hlt
    obtain ⟨t, _, rfl⟩ := List.mem_map.mp hs
    exact slugify_no_lt t (hlt ▸ hc)
  · exact absurd h (by decide)
  · exact slugify_no_lt name h

/-- The no-request placeholder fragment contains no marker that starts
with an angle bracket, is absent from its three literal pieces, and
cannot straddle a boundary out of the two literal left contexts, as long
as the endpoint name (the only spliced text that is not slug-restricted)
contains no angle bracket either. -/
theorem placeholder_no_marker (M : List Char) (idStr nameStr : String)
    (hMhead : M.head? = some '<')
    (hA : containsSeg M "<div class=\"endpoint\" id=\"".data = false)
    (hB : containsSeg M "\">\n      <h4>".data = false)
    (hC : containsSeg M "</h4>\n      <p>No request information available.</p>\n    </div>".data = false)
    (hsA : ∀ k, k < M.length → 0 < k →
      isSuffixL (M.take k) "<div class=\"endpoint\" id=\"".data = false)
    (hsB : ∀ k, k < M.length → 0 < k →
      isSuffixL (M.take k) "\">\n      <h4>".data = false)
    (hid : '<' ∉ idStr.data)
    (hname : '<' ∉ nameStr.data) :
    containsSeg M ("<div class=\"endpoint\" id=\"" ++ idStr ++ "\">\n      <h4>" ++ nameStr
      ++ "</h4>\n      <p>No request information available.</p>\n    </div>").data = false := by
  have hdata : ("<div class=\"endpoint\" id=\"" ++ idStr ++ "\">\n      <h4>" ++ nameStr
      ++ "</h4>\n      <p>No request information available.</p>\n    </div>").data
      = "<div class=\"endpoint\" id=\"".data ++ (idStr.data ++ ("\">\n      <h4>".data
        ++ (nameStr.data
          ++ "</h4>\n      <p>No request information available.</p>\n    </div>".data))) := by
    simp [String.data_append]
  rw [hdata]
  obtain ⟨a, M', rfl⟩ : ∃ a M', M = a :: M' := by
    cases M with
    | nil => simp at hMhead
    | cons a M' => exact ⟨a, M', rfl⟩
  have ha : a = '<' := by simpa using hMhead
  subst ha
  have hltM : '<' ∈ '<' :: M' := List.mem_cons_self _ _
  have hidC : containsSeg ('<' :: M') idStr.data = false := by
    cases hcc : containsSeg ('<' :: M') idStr.data
    · rfl
    · exact absurd (containsSeg_subset _ _ hcc '<' hltM) hid
  have hnameC : containsSeg ('<' :: M') nameStr.data = false := by
    cases hcc : containsSeg ('<' :: M') nameStr.data
    · rfl
    · exact absurd (containsSeg_subset _ _ hcc '<' hltM) hname
  apply contains_false_glue
  · exact hA
  · intro k hk0 hkm h
    have h3 := h.1
    rw [hsA k hkm hk0] at h3
    simp at h3
  · apply contains_false_glue
    · exact hidC
    · intro k hk0 hkm h
      exact hid (isSuffixL_subset _ _ h.1 '<' (head_mem_take '<' M' k hk0))
    · apply contains_false_glue
      · exact hB
      · intro k hk0 hkm h
        have h3 := h.1
        rw [hsB k hkm hk0] at h3
        simp at h3
      · apply contains_false_glue
        · exact hnameC
        · intro k hk0 hkm h
          exact hname (isSuffixL_subset _ _ h.1 '<' (head_mem_take '<' M' k hk0))
        · exact hC

set_option maxRecDepth 16384 in
/-- C7: when an endpoint has no request, `generateEndpointContent`
returns exactly the minimal placeholder fragment — the endpoint `div`
with its id, the title heading and the no-request-information message —
and (for any endpoint name free of raw `<`, the only way user text could
itself smuggle markup in) the fragment contains no query-parameter,
header or body section (`<div class="params-section">`), no
response-example section (`<div class="response-example">`) and no table
at all (`<table>`). -/
theorem no_request_placeholder (parentPath : List String) (endpoint : Item)
    (hreq : endpoint.request = none) :
    generateEndpointContent parentPath endpoint
      = "<div class=\"endpoint\" id=\"" ++ getEndpointId parentPath endpoint.name
        ++ "\">\n      <h4>" ++ endpoint.name
        ++ "</h4>\n      <p>No request information available.</p>\n    </div>" ∧
    ('<' ∉ endpoint.name.data →
      containsSeg "<div class=\"params-section\">".data
          (generateEndpointContent parentPath endpoint).data = false ∧
      containsSeg "<div class=\"response-example\">".data
          (generateEndpointContent parentPath endpoint).data = false ∧
      containsSeg "<table>".data
          (generateEndpointContent parentPath endpoint).data = false) := by
  have heq : generateEndpointContent parentPath endpoint
      = "<div class=\"endpoint\" id=\"" ++ getEndpointId parentPath endpoint.name
        ++ "\">\n      <h4>" ++ endpoint.name
        ++ "</h4>\n      <p>No request information available.</p>\n    </div>" := by
    cases endpoint with
    | mk n d ch r rs =>
      simp only [Item.request] at hreq
      subst hreq
      rfl
  refine ⟨heq, fun hname => ⟨?_, ?_, ?_⟩⟩
  · rw [heq]
    exact placeholder_no_marker _ _ _ rfl (by decide) (by decide) (by decide)
      (by decide) (by decide) (getEndpointId_no_lt _ _) hname
  · rw [heq]
    exact placeholder_no_marker _ _ _ rfl (by decide) (by decide) (by decide)
      (by decide) (by decide) (getEndpointId_no_lt _ _) hname
  · rw [heq]
    exact placeholder_no_marker _ _ _ rfl (by decide) (by decide) (by decide)
      (by decide) (by decide) (getEndpointId_no_lt _ _) hname

set_option maxRecDepth 16384 in
/-- Witness for C7 at the endpoint `Ping` (no request) under the folder
path `API`. -/
theorem no_request_placeholder_witness :
    generateEndpointContent ["API"] (Item.mk "Ping" none .onone none none)
      = "<div class=\"endpoint\" id=\""
        ++ getEndpointId ["API"] (Item.mk "Ping" none .onone none none).name
        ++ "\">\n      <h4>" ++ (Item.mk "Ping" none .onone none none).name
        ++ "</h4>\n      <p>No request information available.</p>\n    </div>" ∧
    containsSeg "<div class=\"params-section\">".data
        (generateEndpointContent ["API"] (Item.mk "Ping" none .onone none none)).data = false ∧
    containsSeg "<div class=\"response-example\">".data
        (generateEndpointContent ["API"] (Item.mk "Ping" none .onone none none)).data = false ∧
    containsSeg "<table>".data
        (generateEndpointContent ["API"] (Item.mk "Ping" none .onone none none)).data = false :=
  ⟨(no_request_placeholder ["API"] (Item.mk "Ping" none .onone none none) rfl).1,
   (no_request_placeholder ["API"] (Item.mk "Ping" none .onone none none) rfl).2 (by decide)⟩
